import Mathlib

/-!
Verification of the workspace/project-resolution engine of the Artic
language server (`artic-lsp`).  The C++ sources are shallowly embedded:
`std::filesystem::path` values become lists of path components,
unordered maps become association lists, unbounded recursion becomes
fuel-indexed recursion (`none` = the C++ call does not return), and the
on-disk filesystem becomes an explicit oracle record.
-/

namespace Artic

/-- An absolute filesystem path, as its components below the root
(`[]` is `/`, `["tmp", "a.art"]` is `/tmp/a.art`). -/
abbrev FsPath := List String

/-- Helper for `weaklyCanonical`: processes components left to right,
keeping the already-normalized prefix reversed in `acc`. -/
def weaklyCanonicalGo : List String → List String → List String
  | acc, [] => acc.reverse
  | acc, "." :: rest => weaklyCanonicalGo acc rest
  | acc, ".." :: rest => weaklyCanonicalGo acc.tail rest
  | acc, s :: rest => weaklyCanonicalGo (s :: acc) rest

/-- Lexical normalization performed by `std::filesystem::weakly_canonical`
on paths whose components do not exist on disk: `.` components are dropped
and `..` pops the previous component (at the root it stays at the root).
Symlink resolution of existing prefixes is outside the model. -/
def weaklyCanonical (p : FsPath) : FsPath := weaklyCanonicalGo [] p

/-- `lsp::DiagnosticSeverity`, the severity carried by configuration
diagnostics (config.h). -/
inductive Severity where
  | error
  | warning
  | information
  | hint
deriving Repr, DecidableEq

/-- `ConfigLog::Context` (config.h): the literal token a configuration
diagnostic points at. -/
structure Context where
  literal : String
deriving Repr, DecidableEq

/-- `ConfigLog::Message` (config.h). -/
structure Message where
  message : String
  severity : Severity
  file : FsPath
  context : Option Context
deriving Repr, DecidableEq

/-- `ConfigLog::quote` (config.h): wraps a string in double quotes. -/
def quoteLit (s : String) : String := "\"" ++ s ++ "\""

/-- `ConfigLog::make_message` (config.h, lines 38-45), embedded exactly as
written: the ternary reads
`context.empty() ? std::make_optional(Context{.literal=quote(context)}) : std::nullopt`,
so a message created with a NONEMPTY context literal stores no context at
all, and a message created with an empty context stores the two-character
literal `""`. -/
def makeMessage (fileContext : FsPath) (s : Severity) (msg : String)
    (context : String) : Message :=
  { message := msg
    severity := s
    file := fileContext
    context :=
      if context.isEmpty then some { literal := quoteLit context } else none }

/-- `ConfigLog::error` (config.h): appends an error message built by
`make_message` under the current `file_context`. -/
def logError (fileContext : FsPath) (msg context : String) : Message :=
  makeMessage fileContext Severity.error msg context

/-- `ConfigLog::warn` (config.h). -/
def logWarn (fileContext : FsPath) (msg context : String) : Message :=
  makeMessage fileContext Severity.warning msg context

/-- `File` (workspace.h): a tracked file record owned by the arena,
keyed by its (weakly canonicalized) path, with an optional in-memory
text buffer. -/
structure File where
  path : FsPath
  text : Option String
deriving Repr, DecidableEq

/-- `Project` (workspace.h): a named project with materialized file list
and named dependencies. -/
structure Project where
  name : String
  root_dir : FsPath := []
  origin : FsPath := []
  file_patterns : List String := []
  files : List FsPath := []
  dependencies : List String := []
  depth : Nat := 100
deriving Repr, DecidableEq

/-- The `projects_` table of the `Workspace`
(`std::unordered_map<Project::Identifier, Ptr<Project>>`), modelled as an
association list in insertion order; `tryGetProject` looks names up. -/
abbrev Table := List Project

/-- `IncludeConfig` (workspace.h). -/
structure IncludeConfig where
  path : FsPath
  raw_path_string : String := ""
  is_optional : Bool := false
deriving Repr, DecidableEq

/-- `ConfigFile` (workspace.h). -/
structure ConfigFile where
  version : String := ""
  path : FsPath := []
  default_project : Option String := none
  projects : List String := []
  includes : List IncludeConfig := []
deriving Repr, DecidableEq

/-- `Workspace::try_get_project` (part_006, lines 200-202): name lookup in
the project table, null when absent. -/
def tryGetProject (t : Table) (id : String) : Option Project :=
  t.find? (fun p => p.name == id)

/-- Whether `projects_` contains a project of the given name
(`projects_.contains(...)`). -/
def containsName (t : Table) (id : String) : Bool :=
  (tryGetProject t id).isSome

/-- The names of the projects in the table, in order. -/
def namesOf (t : Table) : List String := t.map (·.name)

/-- `Workspace::tracked_file` (part_006, lines 192-198): weakly
canonicalize the path, insert a fresh `File` record if the key is new,
and return the record stored under the key together with the updated
`files_` map. -/
def trackedFile (fm : List File) (p : FsPath) : File × List File :=
  let key := weaklyCanonical p
  match fm.find? (fun f => f.path == key) with
  | some f => (f, fm)
  | none => (⟨key, none⟩, fm ++ [⟨key, none⟩])

/-- `Workspace::uses_file` (part_006, lines 166-176): a project uses a
file iff the file is in its materialized list or, recursively, in a
resolvable dependency.  The C++ recursion has no visited set; the fuel
argument makes it total, `none` meaning the C++ call does not return
within that recursion depth.  The dependency loop (early exit on a hit,
sticky divergence) is expressed as a fold so that the recursion is
structural on the fuel. -/
def usesFileF : Nat → Table → Project → FsPath → Option Bool
  | 0, _, _, _ => none
  | fuel + 1, t, p, file =>
    if file ∈ p.files then some true
    else
      p.dependencies.foldl
        (fun acc d =>
          match acc with
          | none => none
          | some true => some true
          | some false =>
            match tryGetProject t d with
            | none => some false
            | some q => usesFileF fuel t q file)
        (some false)

/-- The dependency loop of `Workspace::uses_file`, written recursively:
unresolvable names are skipped, resolvable ones are searched. -/
def usesFileDepsF (fuel : Nat) (t : Table) : List String → FsPath → Option Bool
  | [], _ => some false
  | d :: ds, file =>
    match tryGetProject t d with
    | none => usesFileDepsF fuel t ds file
    | some q =>
      match usesFileF fuel t q file with
      | none => none
      | some true => some true
      | some false => usesFileDepsF fuel t ds file

/-- The step function of the dependency fold in `usesFileF`. -/
def usesStep (fuel : Nat) (t : Table) (file : FsPath)
    (acc : Option Bool) (d : String) : Option Bool :=
  match acc with
  | none => none
  | some true => some true
  | some false =>
    match tryGetProject t d with
    | none => some false
    | some q => usesFileF fuel t q file

/-- The loop `for (const auto& f : project.files) res.push_back(tracked_file(f))`
of `Workspace::files_for_project`: track every listed path, returning the
records in order together with the updated map. -/
def trackedMany (fm : List File) : List FsPath → List File × List File
  | [] => ([], fm)
  | q :: qs =>
    let r := trackedFile fm q
    let rest := trackedMany r.2 qs
    (r.1 :: rest.1, rest.2)

/-- `Workspace::files_for_project` (part_006, lines 178-190): the
project's own tracked files followed by the (recursively collected) files
of every resolvable dependency, concatenated without deduplication.
Fuel-indexed as for `usesFileF`; the dependency loop is a fold so that
the recursion is structural on the fuel. -/
def filesForProjectF : Nat → Table → List File → Project →
    Option (List File × List File)
  | 0, _, _, _ => none
  | fuel + 1, t, fm, p =>
    let own := trackedMany fm p.files
    p.dependencies.foldl
      (fun acc d =>
        match acc with
        | none => none
        | some (l, fmc) =>
          match tryGetProject t d with
          | none => some (l, fmc)
          | some q =>
            match filesForProjectF fuel t fmc q with
            | none => none
            | some (l2, fm2) => some (l ++ l2, fm2))
      (some (own.1, own.2))

/-- The dependency loop of `Workspace::files_for_project`, written
recursively. -/
def filesForDepsF (fuel : Nat) (t : Table) : List File → List String →
    Option (List File × List File)
  | fm, [] => some ([], fm)
  | fm, d :: ds =>
    match tryGetProject t d with
    | none => filesForDepsF fuel t fm ds
    | some q =>
      match filesForProjectF fuel t fm q with
      | none => none
      | some (l, fm2) =>
        match filesForDepsF fuel t fm2 ds with
        | none => none
        | some (l2, fm3) => some (l ++ l2, fm3)

/-- The step function of the dependency fold in `filesForProjectF`. -/
def filesStep (fuel : Nat) (t : Table)
    (acc : Option (List File × List File)) (d : String) :
    Option (List File × List File) :=
  match acc with
  | none => none
  | some (l, fmc) =>
    match tryGetProject t d with
    | none => some (l, fmc)
    | some q =>
      match filesForProjectF fuel t fmc q with
      | none => none
      | some (l2, fm2) => some (l ++ l2, fm2)

/-- Renders a path for use inside diagnostic message texts. -/
def pathString (p : FsPath) : String := "/" ++ String.intercalate "/" p

/-- The text of the cycle error logged by `detect_cycle`
(workspace.cpp revision in part_008, lines 554-555). -/
def cycleErrorText (parent target : String) : String :=
  "Circular dependency detected: " ++ parent ++ " -> " ++ target ++
    " creates a cycle. Removing this dependency."

/-- The `origin` of the project registered under a name (used as the
`file_context` of the cycle error). -/
def originOf (t : Table) (x : String) : FsPath :=
  ((tryGetProject t x).map (·.origin)).getD []

/-- The dependency list of the project registered under a name. -/
def depsOfName (t : Table) (x : String) : List String :=
  ((tryGetProject t x).map (·.dependencies)).getD []

/-- The edge removal performed by `detect_cycle` on a detected cycle:
`deps.erase(std::remove(deps.begin(), deps.end(), project_name), deps.end())`
deletes every occurrence of `target` from the dependency list of the
project registered under `parent`. -/
def removeDep (t : Table) (parent target : String) : Table :=
  t.map fun p =>
    if p.name == parent then
      { p with dependencies := p.dependencies.filter (fun d => d != target) }
    else p

/-- Result of one `detect_cycle` call: the (possibly edge-pruned) project
table, the grown visited set, and the emitted diagnostics. -/
structure DfsOut where
  table : Table
  visited : List String
  msgs : List Message
deriving Repr, DecidableEq

/-- `detect_cycle` (workspace.cpp revision in part_008, lines 542-582):
depth-first search over project dependencies with a `visited` set and a
recursion stack; hitting a name already on the stack reports a cycle and
deletes the offending edge from the parent's dependency list.  The C++
iterates the parent's live dependency vector while a nested call may
erase from it (undefined behavior); the model iterates the snapshot taken
when the node is entered.  Fuel bounds the recursion depth (sufficiency
is proved separately); the dependency loop is a fold so that the
recursion is structural on the fuel. -/
def detectCycleF : Nat → Table → List String → List String → String → String → DfsOut
  | 0, t, vis, _, _, _ => ⟨t, vis, []⟩
  | fuel + 1, t, vis, stk, name, parent =>
    if containsName t name = false then ⟨t, vis, []⟩
    else if name ∈ stk then
      ⟨removeDep t parent name, vis,
        [logError (originOf t parent) (cycleErrorText parent name) name]⟩
    else if name ∈ vis then ⟨t, vis, []⟩
    else
      (depsOfName t name).foldl
        (fun acc d =>
          let r := detectCycleF fuel acc.table acc.visited (name :: stk) d name
          ⟨r.table, r.visited, acc.msgs ++ r.msgs⟩)
        ⟨t, vis ++ [name], []⟩

/-- The dependency loop inside `detect_cycle`, written recursively:
threads table and visited set and accumulates diagnostics. -/
def detectDepsF (fuel : Nat) : Table → List String → List String → List String → String → DfsOut
  | t, vis, _, [], _ => ⟨t, vis, []⟩
  | t, vis, stk, d :: ds, parent =>
    let r := detectCycleF fuel t vis stk d parent
    let r2 := detectDepsF fuel r.table r.visited stk ds parent
    ⟨r2.table, r2.visited, r.msgs ++ r2.msgs⟩

/-- The step function of the dependency fold in `detectCycleF`. -/
def detectStep (fuel : Nat) (stk : List String) (name : String)
    (acc : DfsOut) (d : String) : DfsOut :=
  let r := detectCycleF fuel acc.table acc.visited (name :: stk) d name
  ⟨r.table, r.visited, acc.msgs ++ r.msgs⟩

/-- The inner loop of the cycle check in `instantiate_config`:
`for (auto& dep : project.dependencies) { visited.clear(); rec_stack.clear();
detect_cycle(project.name, dep); }`. -/
def runCycleDeps (fuel : Nat) (t : Table) (root : String) :
    List String → Table × List Message
  | [] => (t, [])
  | d :: ds =>
    let r := detectCycleF fuel t [] [] root d
    let rest := runCycleDeps fuel r.table root ds
    (rest.1, r.msgs ++ rest.2)

/-- The outer loop of the cycle check in `instantiate_config`
(workspace.cpp revision in part_008, lines 584-592): a fresh DFS from
every declared project, once per declared dependency. -/
def runCyclePass (fuel : Nat) (t : Table) : List Project → Table × List Message
  | [] => (t, [])
  | p :: ps =>
    let r := runCycleDeps fuel t p.name p.dependencies
    let rest := runCyclePass fuel r.1 ps
    (rest.1, r.2 ++ rest.2)

/-- The mutable state of the `Workspace` (part_006, lines 204-209):
the per-file project cache, the project, file and config tables. -/
structure WState where
  cache : List (FsPath × Project) := []
  projects : Table := []
  files : List File := []
  configs : List (FsPath × ConfigFile) := []
deriving Repr, DecidableEq

/-- Outcome of `ConfigParser::parse` on an existing config path, supplied
as an oracle: success flag, the parsed document, its project definitions
and the diagnostics the parser appended. -/
structure ParseOutcome where
  success : Bool
  config : ConfigFile := {}
  projects : List Project := []
  msgs : List Message := []
deriving Repr, DecidableEq

/-- The filesystem the workspace consults: existence checks
(`fs::exists`) and the result of parsing a config document at a path. -/
structure Disk where
  pathExists : FsPath → Bool
  parse : FsPath → ParseOutcome

/-- Lookup in the `configs_` table. -/
def lookupConfig (cs : List (FsPath × ConfigFile)) (p : FsPath) : Option ConfigFile :=
  (cs.find? (fun e => e.1 == p)).map (·.2)

/-- Lookup in the `project_for_file_cache_`. -/
def lookupCache (c : List (FsPath × Project)) (p : FsPath) : Option Project :=
  (c.find? (fun e => e.1 == p)).map (·.2)

/-- Text of the duplicate-project warning in `instantiate_config`. -/
def duplicateWarningText (p : Project) : String :=
  "ignoring duplicate definition of " ++ p.name ++ " in " ++ pathString p.origin

/-- The `// track projects` loop of `instantiate_config`: projects whose
name is already taken are dropped with a warning tagged (via the
`context` argument) with the project name; first definition wins. -/
def trackProjects (tbl : Table) (origin : FsPath) : List Project → Table × List Message
  | [] => (tbl, [])
  | p :: ps =>
    if containsName tbl p.name then
      let rest := trackProjects tbl origin ps
      (rest.1, logWarn origin (duplicateWarningText p) p.name :: rest.2)
    else
      trackProjects (tbl ++ [p]) origin ps

/-- Text of the failed-include error in `instantiate_config`. -/
def failedIncludeText (inc : IncludeConfig) : String :=
  "Failed to include config" ++ pathString inc.path

/-- Text of the missing-config error in `instantiate_config` and
`ConfigParser::parse`. -/
def missingConfigText (inc : IncludeConfig) : String :=
  "Config file does not exist: " ++ quoteLit (pathString inc.path)

/-- `Workspace::instantiate_config` (workspace.cpp revision in part_008,
lines 499-634): return the tracked config if present; otherwise parse the
document, track it and its projects (duplicates warned and dropped),
recursively instantiate every include (missing non-optional includes are
errors, missing optional ones silent), and finally run the
cycle-detection pass over the declared projects.  Fuel bounds the include
recursion; `none` in the first component means the parse failed (or fuel
ran out). -/
def instantiateConfigF : Nat → Disk → WState → IncludeConfig →
    Option ConfigFile × WState × List Message
  | 0, _, st, _ => (none, st, [])
  | fuel + 1, disk, st, origin =>
    match lookupConfig st.configs origin.path with
    | some c => (some c, st, [])
    | none =>
      let out := disk.parse origin.path
      if out.success = false then (none, st, out.msgs)
      else
        let st1 := { st with configs := st.configs ++ [(origin.path, out.config)] }
        let tk := trackProjects st1.projects origin.path out.projects
        let st2 := { st1 with projects := tk.1 }
        let ir := out.config.includes.foldl
          (fun (acc : WState × List Message) inc =>
            if disk.pathExists inc.path then
              let r := instantiateConfigF fuel disk acc.1 inc
              let extra :=
                if r.1.isNone then
                  [logError origin.path (failedIncludeText inc) inc.raw_path_string]
                else []
              (r.2.1, acc.2 ++ r.2.2 ++ extra)
            else
              let extra :=
                if inc.is_optional then []
                else [logError origin.path (missingConfigText inc) inc.raw_path_string]
              (acc.1, acc.2 ++ extra))
          (st2, [])
        let cp := runCyclePass (ir.1.projects.length + 1) ir.1.projects out.projects
        let st3 := { ir.1 with projects := cp.1 }
        (some out.config, st3, out.msgs ++ tk.2 ++ ir.2 ++ cp.2)

/-- The recognized configuration file names, in priority order
(part_006, lines 135-138). -/
def configFileNames : List String := [".artic-lsp", "artic.json"]

/-- The loop body of `Workspace::find_config_in_dir` (part_006, lines
134-152): for each recognized name that exists in the directory, return
the tracked config or instantiate it; on instantiation failure fall
through to the next name. -/
def findConfigInDirGo (fuel : Nat) (disk : Disk) :
    WState → FsPath → List String → Option ConfigFile × WState × List Message
  | st, _, [] => (none, st, [])
  | st, dir, nm :: rest =>
    let p := dir ++ [nm]
    if disk.pathExists p then
      match lookupConfig st.configs p with
      | some c => (some c, st, [])
      | none =>
        let r := instantiateConfigF fuel disk st { path := p }
        match r.1 with
        | some c => (some c, r.2.1, r.2.2)
        | none =>
          let r2 := findConfigInDirGo fuel disk r.2.1 dir rest
          (r2.1, r2.2.1, r.2.2 ++ r2.2.2)
    else
      findConfigInDirGo fuel disk st dir rest

/-- `Workspace::find_config_in_dir` (part_006, lines 134-152). -/
def findConfigInDir (fuel : Nat) (disk : Disk) (st : WState) (dir : FsPath) :
    Option ConfigFile × WState × List Message :=
  findConfigInDirGo fuel disk st dir configFileNames

/-- The project loop of `Workspace::find_project_in_config_using_file`
(part_006, lines 154-164): the first declared project that resolves and
uses the file. `none` (outer) marks fuel exhaustion inside `uses_file`. -/
def findProjectLoop (fuel : Nat) (t : Table) :
    List String → FsPath → Option (Option Project)
  | [], _ => some none
  | pid :: rest, file =>
    match tryGetProject t pid with
    | none => findProjectLoop fuel t rest file
    | some q =>
      match usesFileF fuel t q file with
      | none => none
      | some true => some (some q)
      | some false => findProjectLoop fuel t rest file

/-- `Workspace::find_project_in_config_using_file` (part_006, lines
154-164): try the declared projects in order, then fall back to the
declared default project (resolved through the table, possibly null). -/
def findProjectInConfigUsingFile (fuel : Nat) (t : Table) (cfg : ConfigFile)
    (file : FsPath) : Option (Option Project) :=
  match findProjectLoop fuel t cfg.projects file with
  | none => none
  | some (some q) => some (some q)
  | some none =>
    match cfg.default_project with
    | some dp => some (tryGetProject t dp)
    | none => some none

/-- The upward walk of `Workspace::find_config_recursive`, structurally
recursive on the REVERSED directory path: dropping the head of the
reversed path is `dir = dir.parent_path()`. -/
def findConfigRecursiveGo (fuel : Nat) (disk : Disk) :
    WState → List String → FsPath → Option (Option Project × WState × List Message)
  | st, [], _ => some (none, st, [])
  | st, a :: rest, file =>
    let dir := (a :: rest).reverse
    let r := findConfigInDir fuel disk st dir
    let step : Option (Option Project) :=
      match r.1 with
      | none => some none
      | some cfg => findProjectInConfigUsingFile fuel r.2.1.projects cfg file
    match step with
    | none => none
    | some (some proj) => some (some proj, r.2.1, r.2.2)
    | some none =>
      match findConfigRecursiveGo fuel disk r.2.1 rest file with
      | none => none
      | some (res, st2, m2) => some (res, st2, r.2.2 ++ m2)

/-- `Workspace::find_config_recursive` (part_006, lines 122-132): walk the
directory upward while it differs from `/` (the empty component list),
checking each directory for a config that yields a project using the
file; reaching the root returns "no project". -/
def findConfigRecursive (fuel : Nat) (disk : Disk) (st : WState)
    (dir file : FsPath) : Option (Option Project × WState × List Message) :=
  findConfigRecursiveGo fuel disk st dir.reverse file

/-- `Workspace::discover_project_for_file` (part_006, lines 110-120):
weakly canonicalize the file, consult the per-file cache, otherwise walk
upward from the parent directory and cache a hit. -/
def discoverProjectForFile (fuel : Nat) (disk : Disk) (st : WState)
    (file : FsPath) : Option (Option Project × WState × List Message) :=
  let fileC := weaklyCanonical file
  match lookupCache st.cache fileC with
  | some p => some (some p, st, [])
  | none =>
    match findConfigRecursive fuel disk st fileC.dropLast fileC with
    | none => none
    | some (some proj, st2, m) =>
      some (some proj, { st2 with cache := st2.cache ++ [(fileC, proj)] }, m)
    | some (none, st2, m) => some (none, st2, m)

/-- `Workspace::collect_project_files` (part_006, lines 95-106): discover
the file's project; collect that project's files; if the project does not
use the file (default-project case) append the file's own tracked record;
with no project at all return just the tracked file. -/
def collectProjectFilesF (fuel : Nat) (disk : Disk) (st : WState)
    (file : FsPath) : Option (List File × WState × List Message) :=
  match discoverProjectForFile fuel disk st file with
  | none => none
  | some (some project, st1, m) =>
    match filesForProjectF fuel st1.projects st1.files project with
    | none => none
    | some (fls, fm) =>
      let st2 := { st1 with files := fm }
      match usesFileF fuel st2.projects project file with
      | none => none
      | some used =>
        if used then some (fls, st2, m)
        else
          let tr := trackedFile st2.files file
          some (fls ++ [tr.1], { st2 with files := tr.2 }, m)
  | some (none, st1, m) =>
    let tr := trackedFile st1.files file
    some ([tr.1], { st1 with files := tr.2 }, m)

/-! Server-side embeddings (server.cpp, config.cpp). -/

/-- `Server::FileType` (server.h). -/
inductive FileType where
  | sourceFile
  | configFile
deriving Repr, DecidableEq

/-- The filename component of a path (`fs::path::filename`). -/
def pathFilename (p : FsPath) : String := p.getLast?.getD ""

/-- `fs::path::extension` on the filename: empty for `.` and `..`; the
substring from the last period, unless the only period is the leading
character of the filename (dot-files have no extension). -/
def pathExtension (p : FsPath) : String :=
  let fn := pathFilename p
  if fn = "." || fn = ".." then ""
  else
    let cs := fn.toList
    match cs.reverse.findIdx? (fun c => c == '.') with
    | none => ""
    | some r =>
      let k := cs.length - 1 - r
      if k = 0 then "" else String.mk (cs.drop k)

/-- `Server::get_file_type` (server.cpp, lines 74-76):
`file.extension() == ".json" || file.extension() == ".artic-lsp"`
classifies as a configuration file, everything else as a source file. -/
def getFileType (p : FsPath) : FileType :=
  if pathExtension p == ".json" || pathExtension p == ".artic-lsp" then
    FileType.configFile
  else FileType.sourceFile

/-- The routing a text-document notification takes in the server. -/
inductive ServerRoute where
  | configPath
  | compilePath
  | noAction
deriving Repr, DecidableEq

/-- The `TextDocument_DidSave` handler (server.cpp, lines 257-267): config
files go to the workspace-reload/invalidate path, source files are a
no-op (changes were already handled by didChange). -/
def didSaveRoute (file : FsPath) : ServerRoute :=
  if getFileType file = FileType.configFile then ServerRoute.configPath
  else ServerRoute.noAction

/-- The `TextDocument_DidOpen` handler (server.cpp, lines 221-239): source
files are compiled (unless already covered), config files go to the
config path. -/
def didOpenRoute (alreadyCompiled : Bool) (file : FsPath) : ServerRoute :=
  if getFileType file = FileType.sourceFile then
    if alreadyCompiled then ServerRoute.noAction else ServerRoute.compilePath
  else ServerRoute.configPath

/-- The `TextDocument_DidChange` handler (server.cpp, lines 240-255):
config files return early (handled in didSave), source files are
compiled. -/
def didChangeRoute (file : FsPath) : ServerRoute :=
  if getFileType file = FileType.configFile then ServerRoute.noAction
  else ServerRoute.compilePath

/-- A file as the compile frontend sees it: whether its text could be
read and whether it parses without errors. -/
structure CompFile where
  readable : Bool
  parsesOk : Bool
deriving Repr, DecidableEq

/-- Whether every readable file of a build parses without errors
(`parsed_all = log.errors == 0` in `Compiler::compile_files`, part_006,
line 486; unreadable files are skipped before parsing and do not touch
`log.errors`). -/
def parsesAllOf (fs : List CompFile) : Bool :=
  fs.all (fun f => !f.readable || f.parsesOk)

/-- The file loop of `Compiler::compile_files` (part_006, lines 449-482):
unreadable files contribute nothing; a file whose parse fails contributes
its declarations only when `exclude_non_parsed_files` is off. Returns the
files whose declarations enter the program and the `parsed_all` flag. -/
def compileFilesModel (exclude : Bool) (fs : List CompFile) :
    List CompFile × Bool :=
  (fs.filter (fun f => f.readable && (f.parsesOk || !exclude)), parsesAllOf fs)

/-- The events that reach the safe-mode logic of the server within one
session (after `Initialize` set `safe_mode_ = restartFromCrash`). -/
inductive ServerEvent where
  | compileRequest (fs : List CompFile)
  | otherEvent
deriving Repr, DecidableEq

/-- Whether an event is a build in which every file parses. -/
def eventParsesAll : ServerEvent → Bool
  | ServerEvent.compileRequest fs => parsesAllOf fs
  | ServerEvent.otherEvent => false

/-- One step of `Server::compile_this_and_related_files` as far as safe
mode is concerned (server.cpp, lines 1196-1209): the compile runs with
`exclude_non_parsed_files = safe_mode_`; afterwards
`if (safe_mode_ && compile->parsed_all) safe_mode_ = false`.  Returns the
new flag and, for compile events, the (exclude, parsedAll) pair of the
build.  No event ever sets the flag to true. -/
def serverStep (safe : Bool) : ServerEvent → Bool × Option (Bool × Bool)
  | ServerEvent.compileRequest fs =>
    let excl := safe
    let parsedAll := (compileFilesModel excl fs).2
    (if safe && parsedAll then false else safe, some (excl, parsedAll))
  | ServerEvent.otherEvent => (safe, none)

/-- The safe-mode flag after a sequence of events. -/
def runSafeMode (safe : Bool) (evs : List ServerEvent) : Bool :=
  evs.foldl (fun s e => (serverStep s e).1) safe

/-- The (exclude, parsedAll) record of every build performed along a
sequence of events, in order. -/
def runRecords : Bool → List ServerEvent → List (Bool × Bool)
  | _, [] => []
  | safe, e :: rest =>
    let s := serverStep safe e
    s.2.toList ++ runRecords s.1 rest

/-- A character range inside a document, as the LSP adapter produces it
(line, start column, end column). -/
structure DocRange where
  line : Nat
  startCol : Nat
  endCol : Nat
deriving Repr, DecidableEq

/-- An LSP diagnostic as produced by `publish_config_diagnostics`. -/
structure Diagnostic where
  message : String
  severity : Severity
  range : DocRange
deriving Repr, DecidableEq

/-- Whether `pat` occurs at the start of `s` (the substring test behind
`std::string::find`). -/
def leadsWith : List Char → List Char → Bool
  | [], _ => true
  | _ :: _, [] => false
  | a :: as, b :: bs => a == b && leadsWith as bs

/-- All positions at which `lit` occurs in `line` (the
`pos = line.find(literal); ... pos = line.find(literal, pos + 1)` loop). -/
def occurrencesIn (line lit : List Char) : List Nat :=
  (List.range (line.length + 1)).filter (fun i => leadsWith lit (line.drop i))

/-- The per-line scan of `find_in_file` (server.cpp, lines 1299-1319). -/
def findInFileGo (lit : List Char) : Nat → List String → List DocRange
  | _, [] => []
  | i, ln :: rest =>
    (occurrencesIn ln.toList lit).map (fun pos => ⟨i, pos, pos + lit.length⟩)
      ++ findInFileGo lit (i + 1) rest

/-- `find_in_file` (server.cpp, lines 1299-1319): empty literals yield no
ranges; otherwise every occurrence on every line. -/
def findInFile (lines : List String) (lit : String) : List DocRange :=
  if lit.isEmpty then [] else findInFileGo lit.toList 0 lines

/-- The exception publishing can die of. -/
inductive PubError where
  | badOptionalAccess
deriving Repr, DecidableEq

/-- `Server::publish_config_diagnostics` (server.cpp, lines 1296-1346),
diagnostic-creation loop: for each message the code reads
`msg.context.value().literal` BEFORE checking `msg.context.has_value()`;
on a message without context this throws `std::bad_optional_access`,
aborting the whole publication (nothing is sent).  Otherwise the literal
is scanned in the referenced file and one diagnostic per occurrence (or a
single document-level diagnostic at 0:0) is produced. -/
def publishConfigDiagnostics (readLines : FsPath → List String) :
    List Message → Except PubError (List (FsPath × Diagnostic))
  | [] => Except.ok []
  | m :: rest =>
    match m.context with
    | none => Except.error PubError.badOptionalAccess
    | some c =>
      let occ := findInFile (readLines m.file) c.literal
      let base : Diagnostic := ⟨m.message, m.severity, ⟨0, 0, 0⟩⟩
      let these :=
        if occ.isEmpty then [(m.file, base)]
        else occ.map (fun r => (m.file, { base with range := r }))
      match publishConfigDiagnostics readLines rest with
      | Except.error e => Except.error e
      | Except.ok l => Except.ok (these ++ l)

/-- The warning texts of the version check in `ConfigParser::parse`. -/
def unsupportedVersionText : String := "Unsupported artic-config version (Newest is 2.0)"

/-- The deprecation warning text of the version check. -/
def deprecatedVersionText : String := "Deprecated artic-config version (Newest is 2.0)"

/-- The version check of `ConfigParser::parse` (config.cpp, lines 62-69;
identically part_007, lines 65-72), embedded as written:
`int version = 2; if (v != "2.0") { warn(unsupported); }
else if (v == "1.0") { warn(deprecated); version = 1; }`.
Returns the emitted warnings and the internal version number. -/
def versionCheck (cfgPath : FsPath) (v : String) : List Message × Nat :=
  if v ≠ "2.0" then
    ([logWarn cfgPath unsupportedVersionText "artic-config"], 2)
  else if v = "1.0" then
    ([logWarn cfgPath deprecatedVersionText "artic-config"], 1)
  else ([], 2)

/-! Derived notions used to state the claims. -/

/-- The dependency edge of the project graph stored in a table: `a`
depends on `b` when the project registered under `a` lists `b` and `b`
itself resolves. -/
def depEdge (t : Table) (a b : String) : Prop :=
  ∃ p, tryGetProject t a = some p ∧ b ∈ p.dependencies ∧ containsName t b = true

/-- The table's dependency graph has no cycle. -/
def AcyclicTable (t : Table) : Prop :=
  ∀ x, ¬ Relation.TransGen (depEdge t) x x

/-- The C++ call `uses_file(p, file)` on this table returns (it does not
recurse forever): some recursion depth suffices. -/
def UsesFileTerminates (t : Table) (p : Project) (file : FsPath) : Prop :=
  ∃ n, (usesFileF n t p file).isSome

/-- The C++ call `files_for_project(p)` on this table returns. -/
def FilesForTerminates (t : Table) (p : Project) : Prop :=
  ∃ n, ∀ fm, (filesForProjectF n t fm p).isSome

/-- The cycle-detection pass run from every project of the table (as the
code runs it from every project of every loaded config), with the
recursion depth the code's visited set guarantees. -/
def cyclePassAll (t : Table) : Table × List Message :=
  runCyclePass (t.length + 1) t t

/-- The number of table names not yet visited: the measure that bounds
the recursion depth of `detect_cycle`. -/
def countMissing (t : Table) (vis : List String) : Nat :=
  ((namesOf t).filter (fun x => !(vis.contains x))).length

/-- A diagnostic of the shape `detect_cycle` emits: an error whose text
names an edge between two projects that resolve in the table.  (The
dependency literal is also passed as the context argument of
`log.error`, but `make_message` drops it; see the C5 analysis.) -/
def CycleShaped (t : Table) (m : Message) : Prop :=
  m.severity = Severity.error ∧
  ∃ a b, m.message = cycleErrorText a b ∧
    containsName t a = true ∧ containsName t b = true

/-- Pointwise relation of the edge-removal pass: a project keeps its name
and loses only dependency entries. -/
def ProjShrink (p q : Project) : Prop :=
  q.name = p.name ∧ q.dependencies ⊆ p.dependencies

/-- The pass only removes dependency edges: tables are related pointwise
by `ProjShrink`. -/
def Shrinks (t t2 : Table) : Prop := List.Forall₂ ProjShrink t t2

/-- Invariant of the `detect_cycle` DFS: every visited node that is no
longer on the recursion stack lies on no dependency cycle of the current
table. -/
def VisClean (t : Table) (vis stk : List String) : Prop :=
  ∀ x ∈ vis, x ∉ stk → ¬ Relation.TransGen (depEdge t) x x

/-- Postcondition of the DFS dependency loop for a processed dependency
name `d` of `parent`: `d` is unresolvable, or its edge from `parent` was
removed, or `d` is visited and off the stack. -/
def DepClean (t : Table) (vis stk : List String) (parent d : String) : Prop :=
  containsName t d = false ∨ d ∉ depsOfName t parent ∨ (d ∈ vis ∧ d ∉ stk)

/-- Every dependency chain out of `a` in the table is shorter than `n`:
the bound that makes the fuel of `usesFileF` sufficient. -/
def BoundedFrom (t : Table) (a : String) (n : Nat) : Prop :=
  ∀ l, List.Chain (depEdge t) a l → l.length < n

/-- The projects visited by the recursion of `files_for_project`, in
order and with multiplicity (the project itself, then recursively each
resolvable dependency); structural on the fuel via a fold. -/
def closureF : Nat → Table → Project → Option (List Project)
  | 0, _, _ => none
  | fuel + 1, t, p =>
    (p.dependencies.foldl
      (fun acc d =>
        match acc with
        | none => none
        | some l =>
          match tryGetProject t d with
          | none => some l
          | some q =>
            match closureF fuel t q with
            | none => none
            | some l2 => some (l ++ l2))
      (some [])).map (fun ps => p :: ps)

/-- The dependency part of `closureF`, written recursively. -/
def closureDepsF (fuel : Nat) (t : Table) : List String → Option (List Project)
  | [] => some []
  | d :: ds =>
    match tryGetProject t d with
    | none => closureDepsF fuel t ds
    | some q =>
      match closureF fuel t q with
      | none => none
      | some l =>
        match closureDepsF fuel t ds with
        | none => none
        | some l2 => some (l ++ l2)

/-- The step function of the dependency fold in `closureF`. -/
def closureStep (fuel : Nat) (t : Table)
    (acc : Option (List Project)) (d : String) : Option (List Project) :=
  match acc with
  | none => none
  | some l =>
    match tryGetProject t d with
    | none => some l
    | some q =>
      match closureF fuel t q with
      | none => none
      | some l2 => some (l ++ l2)

/-- The files contributed by a closure, in order. -/
def closureFiles (ps : List Project) : List FsPath :=
  ps.flatMap (fun q => q.files.map weaklyCanonical)

/-! Concrete instances used by witnesses and counterexamples. -/

/-- A source file path used by the concrete scenarios. -/
def exAPath : FsPath := ["w", "a.art"]

/-- A project listing `exAPath` and depending on `lib`. -/
def exApp : Project := { name := "app", files := [exAPath], dependencies := ["lib"] }

/-- A dependency project also listing `exAPath`. -/
def exLib : Project := { name := "lib", files := [exAPath] }

/-- A config declaring both overlapping projects. -/
def exOverlapConfig : ConfigFile := { projects := ["app", "lib"] }

/-- Workspace state with the overlapping projects and the config already
tracked. -/
def exOverlapState : WState :=
  { projects := [exApp, exLib], configs := [(["w", "artic.json"], exOverlapConfig)] }

/-- A disk on which only `/w/artic.json` exists. -/
def exOverlapDisk : Disk where
  pathExists := fun p => p == ["w", "artic.json"]
  parse := fun _ => { success := false }

/-- A project with an unresolvable dependency name. -/
def exMissingDep : Project :=
  { name := "app", files := [exAPath], dependencies := ["missing"] }

/-- The config declaring it. -/
def exMissingConfig : ConfigFile := { projects := ["app"] }

/-- The parse outcome delivering it. -/
def exMissingOutcome : ParseOutcome :=
  { success := true, config := exMissingConfig, projects := [exMissingDep] }

/-- A disk whose only parsable document is `/w/artic.json` declaring the
project with the unresolvable dependency. -/
def exMissingDisk : Disk where
  pathExists := fun _ => false
  parse := fun p =>
    if p == ["w", "artic.json"] then exMissingOutcome else { success := false }

/-- One half of a two-project dependency cycle. -/
def exCycX : Project := { name := "x", dependencies := ["y"] }

/-- The other half of the cycle. -/
def exCycY : Project := { name := "y", dependencies := ["x"] }

/-- A project table whose dependency graph is the cycle `x -> y -> x`. -/
def exCycTable : Table := [exCycX, exCycY]

/-- A disk with no files at all. -/
def exEmptyDisk : Disk where
  pathExists := fun _ => false
  parse := fun _ => { success := false }

/-- A single project listing only `exAPath`. -/
def exMain : Project := { name := "main", files := [exAPath] }

/-- A config declaring only that project. -/
def exSingleConfig : ConfigFile := { projects := ["main"] }

/-- Workspace state with the single project and its config tracked. -/
def exSingleState : WState :=
  { projects := [exMain], configs := [(["w", "artic.json"], exSingleConfig)] }

/-! Theorems.  First, the loop equations: each dependency fold equals its
recursively written counterpart, recovering the C++ loop structure. -/

/-- The dependency fold of `usesFileF` is sticky on `none`. -/
theorem foldl_usesStep_none (fuel : Nat) (t : Table) (file : FsPath) :
    ∀ ds : List String, ds.foldl (usesStep fuel t file) none = none := by
  intro ds
  induction ds with
  | nil => rfl
  | cons d ds ih => simpa [List.foldl_cons, usesStep] using ih

/-- The dependency fold of `usesFileF` is sticky on `some true`. -/
theorem foldl_usesStep_true (fuel : Nat) (t : Table) (file : FsPath) :
    ∀ ds : List String, ds.foldl (usesStep fuel t file) (some true) = some true := by
  intro ds
  induction ds with
  | nil => rfl
  | cons d ds ih => simpa [List.foldl_cons, usesStep] using ih

/-- The dependency fold of `usesFileF` computes `usesFileDepsF`. -/
theorem foldl_usesStep_eq (fuel : Nat) (t : Table) (file : FsPath) :
    ∀ ds : List String,
      ds.foldl (usesStep fuel t file) (some false) = usesFileDepsF fuel t ds file := by
  intro ds
  induction ds with
  | nil => rfl
  | cons d ds ih =>
    rw [List.foldl_cons]
    cases hres : tryGetProject t d with
    | none =>
      simp only [usesStep, hres]
      rw [ih]
      simp [usesFileDepsF, hres]
    | some q =>
      simp only [usesStep, hres]
      cases hq : usesFileF fuel t q file with
      | none =>
        rw [foldl_usesStep_none]
        simp [usesFileDepsF, hres, hq]
      | some b =>
        cases b with
        | true =>
          rw [foldl_usesStep_true]
          simp [usesFileDepsF, hres, hq]
        | false =>
          rw [ih]
          simp [usesFileDepsF, hres, hq]

/-- Unfolding of `usesFileF` at positive fuel, in terms of the loop. -/
theorem usesFileF_succ_eq (fuel : Nat) (t : Table) (p : Project) (file : FsPath) :
    usesFileF (fuel + 1) t p file
      = if file ∈ p.files then some true
        else usesFileDepsF fuel t p.dependencies file := by
  show (if file ∈ p.files then some true
    else p.dependencies.foldl (usesStep fuel t file) (some false)) = _
  rw [foldl_usesStep_eq]

/-- The dependency fold of `filesForProjectF` is sticky on `none`. -/
theorem foldl_filesStep_none (fuel : Nat) (t : Table) :
    ∀ ds : List String, ds.foldl (filesStep fuel t) none = none := by
  intro ds
  induction ds with
  | nil => rfl
  | cons d ds ih => simpa [List.foldl_cons, filesStep] using ih

/-- The dependency fold of `filesForProjectF` computes `filesForDepsF`
(prefixing the accumulated files). -/
theorem foldl_filesStep_eq (fuel : Nat) (t : Table) :
    ∀ (ds : List String) (l0 : List File) (fm0 : List File),
      ds.foldl (filesStep fuel t) (some (l0, fm0))
        = match filesForDepsF fuel t fm0 ds with
          | none => none
          | some (l, fm2) => some (l0 ++ l, fm2) := by
  intro ds
  induction ds with
  | nil => intro l0 fm0; simp [filesForDepsF]
  | cons d ds ih =>
    intro l0 fm0
    rw [List.foldl_cons]
    cases hres : tryGetProject t d with
    | none =>
      simp only [filesStep, hres]
      rw [ih]
      simp [filesForDepsF, hres]
    | some q =>
      simp only [filesStep, hres]
      cases hq : filesForProjectF fuel t fm0 q with
      | none =>
        rw [foldl_filesStep_none]
        simp [filesForDepsF, hres, hq]
      | some pr =>
        obtain ⟨l2, fmA⟩ := pr
        rw [ih]
        simp only [filesForDepsF, hres, hq]
        cases hfd : filesForDepsF fuel t fmA ds with
        | none => rfl
        | some pr2 => simp [List.append_assoc]

/-- Unfolding of `filesForProjectF` at positive fuel, in terms of the
loop. -/
theorem filesForProjectF_succ_eq (fuel : Nat) (t : Table) (fm : List File)
    (p : Project) :
    filesForProjectF (fuel + 1) t fm p
      = match filesForDepsF fuel t (trackedMany fm p.files).2 p.dependencies with
        | none => none
        | some (df, fm2) => some ((trackedMany fm p.files).1 ++ df, fm2) := by
  show p.dependencies.foldl (filesStep fuel t)
      (some ((trackedMany fm p.files).1, (trackedMany fm p.files).2)) = _
  rw [foldl_filesStep_eq]

/-- The dependency fold of `closureF` is sticky on `none`. -/
theorem foldl_closureStep_none (fuel : Nat) (t : Table) :
    ∀ ds : List String, ds.foldl (closureStep fuel t) none = none := by
  intro ds
  induction ds with
  | nil => rfl
  | cons d ds ih => simpa [List.foldl_cons, closureStep] using ih

/-- The dependency fold of `closureF` computes `closureDepsF`. -/
theorem foldl_closureStep_eq (fuel : Nat) (t : Table) :
    ∀ (ds : List String) (l0 : List Project),
      ds.foldl (closureStep fuel t) (some l0)
        = match closureDepsF fuel t ds with
          | none => none
          | some l => some (l0 ++ l) := by
  intro ds
  induction ds with
  | nil => intro l0; simp [closureDepsF]
  | cons d ds ih =>
    intro l0
    rw [List.foldl_cons]
    cases hres : tryGetProject t d with
    | none =>
      simp only [closureStep, hres]
      rw [ih]
      simp [closureDepsF, hres]
    | some q =>
      simp only [closureStep, hres]
      cases hq : closureF fuel t q with
      | none =>
        rw [foldl_closureStep_none]
        simp [closureDepsF, hres, hq]
      | some l2 =>
        rw [ih]
        simp only [closureDepsF, hres, hq]
        cases hfd : closureDepsF fuel t ds with
        | none => rfl
        | some l3 => simp [List.append_assoc]

/-- Unfolding of `closureF` at positive fuel, in terms of the loop. -/
theorem closureF_succ_eq (fuel : Nat) (t : Table) (p : Project) :
    closureF (fuel + 1) t p
      = match closureDepsF fuel t p.dependencies with
        | none => none
        | some ps => some (p :: ps) := by
  show (p.dependencies.foldl (closureStep fuel t) (some [])).map (fun ps => p :: ps) = _
  rw [foldl_closureStep_eq]
  cases hfd : closureDepsF fuel t p.dependencies with
  | none => rfl
  | some l => simp

/-- The dependency fold of `detectCycleF` computes `detectDepsF`
(prefixing the accumulated messages). -/
theorem foldl_detectStep_eq (fuel : Nat) (stk : List String) (name : String) :
    ∀ (ds : List String) (t : Table) (vis : List String) (macc : List Message),
      ds.foldl (detectStep fuel stk name) ⟨t, vis, macc⟩
        = ⟨(detectDepsF fuel t vis (name :: stk) ds name).table,
            (detectDepsF fuel t vis (name :: stk) ds name).visited,
            macc ++ (detectDepsF fuel t vis (name :: stk) ds name).msgs⟩ := by
  intro ds
  induction ds with
  | nil => intro t vis macc; simp [detectDepsF]
  | cons d ds ih =>
    intro t vis macc
    rw [List.foldl_cons]
    show List.foldl (detectStep fuel stk name)
        ⟨(detectCycleF fuel t vis (name :: stk) d name).table,
          (detectCycleF fuel t vis (name :: stk) d name).visited,
          macc ++ (detectCycleF fuel t vis (name :: stk) d name).msgs⟩ ds = _
    rw [ih]
    simp [detectDepsF, List.append_assoc]

/-- Unfolding of `detectCycleF` at positive fuel, in terms of the loop. -/
theorem detectCycleF_succ_eq (fuel : Nat) (t : Table) (vis stk : List String)
    (name parent : String) :
    detectCycleF (fuel + 1) t vis stk name parent
      = if containsName t name = false then ⟨t, vis, []⟩
        else if name ∈ stk then
          ⟨removeDep t parent name, vis,
            [logError (originOf t parent) (cycleErrorText parent name) name]⟩
        else if name ∈ vis then ⟨t, vis, []⟩
        else detectDepsF fuel t (vis ++ [name]) (name :: stk) (depsOfName t name) name := by
  show (if containsName t name = false then (⟨t, vis, []⟩ : DfsOut)
    else if name ∈ stk then _ else if name ∈ vis then _
    else (depsOfName t name).foldl (detectStep fuel stk name) ⟨t, vis ++ [name], []⟩) = _
  by_cases h1 : containsName t name = false
  · simp [h1]
  · by_cases h2 : name ∈ stk
    · simp [h1, h2]
    · by_cases h3 : name ∈ vis
      · simp [h1, h2, h3]
      · simp only [h1, h2, h3, if_false, if_neg]
        rw [foldl_detectStep_eq]
        simp

/-! The claims. -/

/-- If `l₁` has no match, searching the concatenation searches `l₂`. -/
theorem find?_append_of_none {α : Type} {p : α → Bool} {l1 l2 : List α}
    (h : l1.find? p = none) : (l1 ++ l2).find? p = l2.find? p := by
  induction l1 with
  | nil => rfl
  | cons a l ih =>
    cases hp : p a with
    | true => simp [List.find?_cons, hp] at h
    | false =>
      simp only [List.find?_cons, hp] at h
      simp only [List.cons_append, List.find?_cons, hp]
      exact ih h

/-- The record returned by `tracked_file` carries the canonicalized
path. -/
theorem trackedFile_fst_path (fm : List File) (p : FsPath) :
    (trackedFile fm p).1.path = weaklyCanonical p := by
  cases hfind : fm.find? (fun f => f.path == weaklyCanonical p) with
  | some f =>
    have hf := List.find?_some hfind
    simp only [trackedFile, hfind]
    simpa using hf
  | none => simp only [trackedFile, hfind]

/-- The records produced by the file loop of `files_for_project` have
exactly the canonicalized listed paths, in order. -/
theorem trackedMany_paths (fm : List File) (qs : List FsPath) :
    (trackedMany fm qs).1.map File.path = qs.map weaklyCanonical := by
  induction qs generalizing fm with
  | nil => rfl
  | cons q qs ih =>
    simp only [trackedMany, List.map_cons]
    rw [trackedFile_fst_path, ih]

/-- Lockstep lemma for the dependency loops: if `uses_file` finds the
file among the dependencies, the file loop of `files_for_project` (run
with the same recursion depth) produces its canonical path. -/
theorem usesDeps_mem_filesDeps (n : Nat)
    (ih : ∀ t (p : Project) file fm l fm2, usesFileF n t p file = some true →
      filesForProjectF n t fm p = some (l, fm2) →
      weaklyCanonical file ∈ l.map File.path) :
    ∀ t (ds : List String) file fm l fm2,
      usesFileDepsF n t ds file = some true →
      filesForDepsF n t fm ds = some (l, fm2) →
      weaklyCanonical file ∈ l.map File.path := by
  intro t ds
  induction ds with
  | nil => intro file fm l fm2 hu _; simp [usesFileDepsF] at hu
  | cons d ds ihds =>
    intro file fm l fm2 hu hf
    cases hres : tryGetProject t d with
    | none =>
      simp only [usesFileDepsF, hres] at hu
      simp only [filesForDepsF, hres] at hf
      exact ihds _ _ _ _ hu hf
    | some q =>
      simp only [usesFileDepsF, hres] at hu
      simp only [filesForDepsF, hres] at hf
      cases hq : usesFileF n t q file with
      | none => rw [hq] at hu; exact absurd hu (by simp)
      | some b =>
        rw [hq] at hu
        cases hfq : filesForProjectF n t fm q with
        | none => rw [hfq] at hf; exact absurd hf (by simp)
        | some pr =>
          obtain ⟨l1, fmA⟩ := pr
          rw [hfq] at hf
          dsimp only at hf
          cases hfd : filesForDepsF n t fmA ds with
          | none => rw [hfd] at hf; exact absurd hf (by simp)
          | some pr2 =>
            obtain ⟨l2, fmB⟩ := pr2
            rw [hfd] at hf
            dsimp only at hf
            cases hf
            cases b with
            | true =>
              have := ih t q file fm l1 fmA hq hfq
              simp only [List.map_append, List.mem_append]
              exact Or.inl this
            | false =>
              dsimp only at hu
              have := ihds file fmA l2 fm2 hu hfd
              simp only [List.map_append, List.mem_append]
              exact Or.inr this

/-- Lockstep lemma: when `uses_file` answers true at some recursion
depth, `files_for_project` at the same depth collects the file's
canonical path. -/
theorem usesFile_mem_filesForPr : ∀ (n : Nat) t (p : Project) file fm l fm2,
    usesFileF n t p file = some true →
    filesForProjectF n t fm p = some (l, fm2) →
    weaklyCanonical file ∈ l.map File.path := by
  intro n
  induction n with
  | zero => intro t p file fm l fm2 hu _; simp [usesFileF] at hu
  | succ n ih =>
    intro t p file fm l fm2 hu hf
    rw [filesForProjectF_succ_eq] at hf
    by_cases hmem : file ∈ p.files
    · cases hfd : filesForDepsF n t (trackedMany fm p.files).2 p.dependencies with
      | none =>
        rw [hfd] at hf
        exact absurd hf (by simp)
      | some pr =>
        obtain ⟨df, fmA⟩ := pr
        rw [hfd] at hf
        dsimp only at hf
        cases hf
        simp only [List.map_append, List.mem_append]
        left
        rw [trackedMany_paths]
        exact List.mem_map_of_mem weaklyCanonical hmem
    · rw [usesFileF_succ_eq, if_neg hmem] at hu
      cases hfd : filesForDepsF n t (trackedMany fm p.files).2 p.dependencies with
      | none =>
        rw [hfd] at hf
        exact absurd hf (by simp)
      | some pr =>
        obtain ⟨df, fmA⟩ := pr
        rw [hfd] at hf
        dsimp only at hf
        cases hf
        have := usesDeps_mem_filesDeps n ih t p.dependencies file
          (trackedMany fm p.files).2 df fm2 hu hfd
        simp only [List.map_append, List.mem_append]
        exact Or.inr this

/-- C1: whenever `collect_project_files` returns, the returned file set
contains the (canonicalized) requested file: it is collected from the
project when `uses_file` holds, appended as a synthetic member when not,
and with no discovered project the result is exactly the file alone. -/
theorem collect_contains_file (fuel : Nat) (disk : Disk) (st : WState)
    (file : FsPath) (res : List File × WState × List Message)
    (h : collectProjectFilesF fuel disk st file = some res) :
    weaklyCanonical file ∈ res.1.map File.path ∧
    (∀ st1 m, discoverProjectForFile fuel disk st file = some (none, st1, m) →
      res.1.map File.path = [weaklyCanonical file]) := by
  cases hd : discoverProjectForFile fuel disk st file with
  | none =>
    simp only [collectProjectFilesF, hd] at h
    exact absurd h (by simp)
  | some r =>
    obtain ⟨po, st1, m⟩ := r
    cases po with
    | some proj =>
      simp only [collectProjectFilesF, hd] at h
      cases hf : filesForProjectF fuel st1.projects st1.files proj with
      | none => rw [hf] at h; exact absurd h (by simp)
      | some pr =>
        rw [hf] at h
        cases hu : usesFileF fuel st1.projects proj file with
        | none => rw [hu] at h; exact absurd h (by simp)
        | some used =>
          rw [hu] at h
          cases used with
          | true =>
            simp only [if_pos] at h
            cases h
            refine ⟨usesFile_mem_filesForPr fuel st1.projects proj file
              st1.files pr.1 pr.2 hu (by rw [hf]), ?_⟩
            intro st2 m2 hd2
            simp at hd2
          | false =>
            simp only [Bool.false_eq_true, if_neg] at h
            cases h
            refine ⟨?_, ?_⟩
            · simp only [List.map_append, List.mem_append, List.map_cons,
                List.map_nil, List.mem_singleton]
              right
              rw [trackedFile_fst_path]
            · intro st2 m2 hd2
              simp at hd2
    | none =>
      simp only [collectProjectFilesF, hd] at h
      cases h
      refine ⟨?_, ?_⟩
      · simp only [List.map_cons, List.map_nil, List.mem_singleton]
        rw [trackedFile_fst_path]
      · intro st2 m2 hd2
        simp only [List.map_cons, List.map_nil]
        rw [trackedFile_fst_path]

/-- C1 witness: the theorem applied to an empty workspace on an empty
disk, where the collected set is the file alone. -/
theorem collect_contains_file_witness :
    weaklyCanonical ["w", "foo.art"]
      ∈ ([({ path := ["w", "foo.art"], text := none } : File)]).map File.path :=
  (collect_contains_file 1 exEmptyDisk {} ["w", "foo.art"]
    ([⟨["w", "foo.art"], none⟩], { files := [⟨["w", "foo.art"], none⟩] }, [])
    rfl).1

/-- A directory none of whose recognized config names exist yields no
config, no state change and no diagnostics. -/
theorem findConfigInDirGo_no_cfg (fuel : Nat) (disk : Disk) (st : WState)
    (dir : FsPath) (names : List String)
    (hno : ∀ nm ∈ names, disk.pathExists (dir ++ [nm]) = false) :
    findConfigInDirGo fuel disk st dir names = (none, st, []) := by
  induction names with
  | nil => rfl
  | cons nm rest ih =>
    simp only [findConfigInDirGo, hno nm (List.mem_cons_self nm rest),
      Bool.false_eq_true, if_false]
    exact ih (fun x hx => hno x (List.mem_cons_of_mem _ hx))

/-- The upward walk of `find_config_recursive` (in its structurally
recursive form) over directories that contain no recognized config file
terminates at the root with "no project", unchanged state and no
diagnostics. -/
theorem findConfigRecursiveGo_no_cfg (fuel : Nat) (disk : Disk) (st : WState)
    (file : FsPath) :
    ∀ rdir : List String,
      (∀ k, rdir.reverse.take k ≠ [] →
        disk.pathExists (rdir.reverse.take k ++ [".artic-lsp"]) = false ∧
        disk.pathExists (rdir.reverse.take k ++ ["artic.json"]) = false) →
      findConfigRecursiveGo fuel disk st rdir file = some (none, st, []) := by
  intro rdir
  induction rdir with
  | nil => intro _; rfl
  | cons a rest ih =>
    intro hno
    have hrev : (a :: rest).reverse = rest.reverse ++ [a] := by simp
    rw [hrev] at hno
    have hne : rest.reverse ++ [a] ≠ [] := by simp
    have hself : ∀ nm ∈ configFileNames,
        disk.pathExists (rest.reverse ++ [a] ++ [nm]) = false := by
      intro nm hnm
      have htake : (rest.reverse ++ [a]).take (rest.reverse ++ [a]).length
          = rest.reverse ++ [a] := List.take_length _
      have h2 := hno (rest.reverse ++ [a]).length (by rw [htake]; exact hne)
      rw [htake] at h2
      simp only [configFileNames, List.mem_cons, List.mem_singleton] at hnm
      rcases hnm with rfl | rfl | h
      · exact h2.1
      · exact h2.2
      · exact absurd h (List.not_mem_nil nm)
    have h1 : findConfigInDir fuel disk st (rest.reverse ++ [a]) = (none, st, []) :=
      findConfigInDirGo_no_cfg fuel disk st (rest.reverse ++ [a]) configFileNames hself
    have htail : ∀ k, rest.reverse.take k ≠ [] →
        disk.pathExists (rest.reverse.take k ++ [".artic-lsp"]) = false ∧
        disk.pathExists (rest.reverse.take k ++ ["artic.json"]) = false := by
      intro k hk
      rcases Nat.lt_or_ge rest.reverse.length k with hklt | hkle
      · have hleq : rest.reverse.take k = rest.reverse :=
          List.take_of_length_le (by omega)
        have h3 : (rest.reverse ++ [a]).take rest.reverse.length = rest.reverse := by
          rw [List.take_append_eq_append_take]
          simp
        have h2 := hno rest.reverse.length (by rw [h3]; rw [hleq] at hk; exact hk)
        rw [h3] at h2
        rw [hleq]
        exact h2
      · have heq : (rest.reverse ++ [a]).take k = rest.reverse.take k := by
          rw [List.take_append_eq_append_take]
          have hz : k - rest.reverse.length = 0 := by omega
          rw [hz]
          simp
        have h2 := hno k (by rw [heq]; exact hk)
        rw [heq] at h2
        exact h2
    simp [findConfigRecursiveGo, h1, ih htail]

/-- The upward walk of `find_config_recursive` over directories that
contain no recognized config file terminates at the root with "no
project", unchanged state and no diagnostics. -/
theorem findConfigRecursive_no_cfg (fuel : Nat) (disk : Disk) (st : WState)
    (file : FsPath) (dir : FsPath)
    (hno : ∀ k, dir.take k ≠ [] →
      disk.pathExists (dir.take k ++ [".artic-lsp"]) = false ∧
      disk.pathExists (dir.take k ++ ["artic.json"]) = false) :
    findConfigRecursive fuel disk st dir file = some (none, st, []) := by
  have := findConfigRecursiveGo_no_cfg fuel disk st file dir.reverse
    (by rw [List.reverse_reverse]; exact hno)
  exact this

/-- C3: for a file none of whose ancestor directories holds a recognized
configuration file (and that is not in the discovery cache), the upward
walk terminates at the root with "no project", the compile set is exactly
the file's own tracked record, and no configuration diagnostics are
emitted. -/
theorem no_config_walk_single_file (fuel : Nat) (disk : Disk) (st : WState)
    (file : FsPath)
    (hcache : lookupCache st.cache (weaklyCanonical file) = none)
    (hno : ∀ k, ((weaklyCanonical file).dropLast.take k) ≠ [] →
      disk.pathExists ((weaklyCanonical file).dropLast.take k ++ [".artic-lsp"]) = false ∧
      disk.pathExists ((weaklyCanonical file).dropLast.take k ++ ["artic.json"]) = false) :
    collectProjectFilesF fuel disk st file
      = some ([(trackedFile st.files file).1],
          { st with files := (trackedFile st.files file).2 }, []) ∧
    (trackedFile st.files file).1.path = weaklyCanonical file := by
  have hwalk := findConfigRecursive_no_cfg fuel disk st (weaklyCanonical file)
    (weaklyCanonical file).dropLast hno
  have hdisc : discoverProjectForFile fuel disk st file = some (none, st, []) := by
    simp only [discoverProjectForFile, hcache, hwalk]
  refine ⟨?_, trackedFile_fst_path _ _⟩
  simp only [collectProjectFilesF, hdisc]

/-- C3 witness: a concrete file on an empty disk with an empty workspace
state. -/
theorem no_config_walk_single_file_witness :
    collectProjectFilesF 1 exEmptyDisk {} ["tmp", "work", "foo.art"]
      = some ([(trackedFile (WState.files {}) ["tmp", "work", "foo.art"]).1],
          { ({} : WState) with
              files := (trackedFile (WState.files {}) ["tmp", "work", "foo.art"]).2 }, []) ∧
    (trackedFile (WState.files {}) ["tmp", "work", "foo.art"]).1.path
      = weaklyCanonical ["tmp", "work", "foo.art"] :=
  no_config_walk_single_file 1 exEmptyDisk {} ["tmp", "work", "foo.art"] rfl
    (fun _ _ => ⟨rfl, rfl⟩)

/-- C4 counterexample: with project `app` listing `/w/a.art` and
depending on `lib`, which also lists `/w/a.art`, the compilation unit for
`/w/a.art` contains the path twice — `files_for_project` performs no
deduplication. -/
theorem collect_duplicate_counterexample :
    (collectProjectFilesF 5 exOverlapDisk exOverlapState exAPath).map
        (fun r => (r.1.map File.path).count (weaklyCanonical exAPath))
      = some 2 := by
  rfl

/-- `closureFiles` distributes over cons. -/
theorem closureFiles_cons (p : Project) (ps : List Project) :
    closureFiles (p :: ps) = p.files.map weaklyCanonical ++ closureFiles ps := by
  simp [closureFiles]

/-- `closureFiles` distributes over append. -/
theorem closureFiles_append (ps qs : List Project) :
    closureFiles (ps ++ qs) = closureFiles ps ++ closureFiles qs := by
  simp [closureFiles]

/-- The dependency loop of `files_for_project` produces exactly the files
of the dependency closure it visits. -/
theorem filesDeps_closure (n : Nat)
    (ih : ∀ t (p : Project) fm l fm2, filesForProjectF n t fm p = some (l, fm2) →
      ∃ ps, closureF n t p = some ps ∧ l.map File.path = closureFiles ps) :
    ∀ t (ds : List String) fm l fm2, filesForDepsF n t fm ds = some (l, fm2) →
      ∃ ps, closureDepsF n t ds = some ps ∧ l.map File.path = closureFiles ps := by
  intro t ds
  induction ds with
  | nil =>
    intro fm l fm2 hf
    simp only [filesForDepsF] at hf
    cases hf
    exact ⟨[], rfl, by simp [closureFiles]⟩
  | cons d ds ihds =>
    intro fm l fm2 hf
    cases hres : tryGetProject t d with
    | none =>
      simp only [filesForDepsF, hres] at hf
      obtain ⟨ps, hps, hl⟩ := ihds fm l fm2 hf
      exact ⟨ps, by simp only [closureDepsF, hres]; exact hps, hl⟩
    | some q =>
      simp only [filesForDepsF, hres] at hf
      cases hfq : filesForProjectF n t fm q with
      | none => rw [hfq] at hf; exact absurd hf (by simp)
      | some pr =>
        obtain ⟨l1, fmA⟩ := pr
        rw [hfq] at hf
        dsimp only at hf
        cases hfd : filesForDepsF n t fmA ds with
        | none => rw [hfd] at hf; exact absurd hf (by simp)
        | some pr2 =>
          obtain ⟨l2, fmB⟩ := pr2
          rw [hfd] at hf
          dsimp only at hf
          cases hf
          obtain ⟨ps1, hps1, hl1⟩ := ih t q fm l1 fmA hfq
          obtain ⟨ps2, hps2, hl2⟩ := ihds fmA l2 fm2 hfd
          refine ⟨ps1 ++ ps2, ?_, ?_⟩
          · simp only [closureDepsF, hres, hps1, hps2]
          · simp only [List.map_append, closureFiles_append, hl1, hl2]

/-- `files_for_project` produces exactly the canonicalized files of the
projects its recursion visits, in visit order, without deduplication. -/
theorem filesFor_closure : ∀ (n : Nat) t (p : Project) fm l fm2,
    filesForProjectF n t fm p = some (l, fm2) →
    ∃ ps, closureF n t p = some ps ∧ l.map File.path = closureFiles ps := by
  intro n
  induction n with
  | zero => intro t p fm l fm2 hf; simp [filesForProjectF] at hf
  | succ n ih =>
    intro t p fm l fm2 hf
    rw [filesForProjectF_succ_eq] at hf
    cases hfd : filesForDepsF n t (trackedMany fm p.files).2 p.dependencies with
    | none =>
      rw [hfd] at hf
      exact absurd hf (by simp)
    | some pr =>
      obtain ⟨df, fmA⟩ := pr
      rw [hfd] at hf
      dsimp only at hf
      cases hf
      obtain ⟨ps, hps, hl⟩ :=
        filesDeps_closure n ih t p.dependencies (trackedMany fm p.files).2 df fm2 hfd
      refine ⟨p :: ps, ?_, ?_⟩
      · rw [closureF_succ_eq, hps]
      · simp only [List.map_append, closureFiles_cons, hl, trackedMany_paths]

/-- C4 (amended): the compilation unit contains each path at most once
PROVIDED no file is listed (after canonicalization) by two projects of
the visited dependency closure, no project lists a file twice, the
closure visits no project twice, and the synthetic append (when the
project does not use the file) does not duplicate an existing path; the
code itself performs no deduplication. -/
theorem collect_nodup_amended (fuel : Nat) (disk : Disk) (st : WState)
    (file : FsPath) (res : List File × WState × List Message)
    (proj : Project) (st1 : WState) (m : List Message) (ps : List Project)
    (hd : discoverProjectForFile fuel disk st file = some (some proj, st1, m))
    (hc : collectProjectFilesF fuel disk st file = some res)
    (hps : closureF fuel st1.projects proj = some ps)
    (hnodup : ∀ q ∈ ps, (q.files.map weaklyCanonical).Nodup)
    (hdisj : ps.Pairwise (fun q r =>
      ∀ a ∈ q.files.map weaklyCanonical, a ∉ r.files.map weaklyCanonical))
    (hself : usesFileF fuel st1.projects proj file = some true ∨
      weaklyCanonical file ∉ closureFiles ps) :
    (res.1.map File.path).Nodup := by
  have hjoin : (closureFiles ps).Nodup := by
    have : closureFiles ps = (ps.map (fun q => q.files.map weaklyCanonical)).join := by
      simp [closureFiles, List.flatMap]
    rw [this, List.nodup_join]
    constructor
    · intro lx hlx
      obtain ⟨q, hq, rfl⟩ := List.mem_map.mp hlx
      exact hnodup q hq
    · exact List.Pairwise.map _ (fun {a b} hab => fun x hx hx2 => hab x hx hx2) hdisj
  simp only [collectProjectFilesF, hd] at hc
  cases hf : filesForProjectF fuel st1.projects st1.files proj with
  | none => rw [hf] at hc; exact absurd hc (by simp)
  | some pr =>
    rw [hf] at hc
    obtain ⟨ps2, hps2, hl⟩ := filesFor_closure fuel st1.projects proj st1.files
      pr.1 pr.2 (by rw [hf])
    have hps2eq : ps2 = ps := by
      rw [hps] at hps2
      exact (Option.some_inj.mp hps2).symm
    rw [hps2eq] at hl
    cases hu : usesFileF fuel st1.projects proj file with
    | none => rw [hu] at hc; exact absurd hc (by simp)
    | some used =>
      rw [hu] at hc
      cases used with
      | true =>
        simp only [if_pos] at hc
        cases hc
        rw [hl]
        exact hjoin
      | false =>
        simp only [Bool.false_eq_true, if_neg] at hc
        cases hc
        have hnotin : weaklyCanonical file ∉ closureFiles ps := by
          rcases hself with h1 | h1
          · rw [hu] at h1
            exact absurd h1 (by simp)
          · exact h1
        simp only [List.map_append, List.map_cons, List.map_nil]
        rw [trackedFile_fst_path, hl]
        rw [List.nodup_append]
        refine ⟨hjoin, List.nodup_singleton _, ?_⟩
        intro a ha
        simp only [List.mem_singleton]
        intro heq
        rw [heq] at ha
        exact hnotin ha

/-- C4 amended witness: a single project with a single file; the unit has
no duplicates. -/
theorem collect_nodup_amended_witness :
    (([({ path := ["w", "a.art"], text := none } : File)]).map File.path).Nodup :=
  collect_nodup_amended 3 exOverlapDisk exSingleState exAPath
    ([⟨["w", "a.art"], none⟩],
      { exSingleState with
          cache := [(["w", "a.art"], exMain)]
          files := [⟨["w", "a.art"], none⟩] }, [])
    exMain { exSingleState with cache := [(["w", "a.art"], exMain)] } [] [exMain]
    rfl rfl rfl (by decide) (by decide) (Or.inl rfl)

/-- C10: `Workspace::tracked_file` is a canonicalizing intern operation:
the returned record's path is the weakly canonicalized argument, the
updated map stores the record under that key, and a second call with any
path canonicalizing to the same key returns the same record and leaves
the map (including the record's text) unchanged. -/
theorem tracked_file_canonical_intern (st : List File) (p q : FsPath)
    (h : weaklyCanonical p = weaklyCanonical q) :
    (trackedFile st p).1.path = weaklyCanonical p ∧
    (trackedFile st p).2.find? (fun f => f.path == weaklyCanonical p)
      = some (trackedFile st p).1 ∧
    trackedFile (trackedFile st p).2 q
      = ((trackedFile st p).1, (trackedFile st p).2) := by
  cases hfind : st.find? (fun f => f.path == weaklyCanonical p) with
  | some f =>
    have hf := List.find?_some hfind
    have hfp : f.path = weaklyCanonical p := by
      simpa using hf
    have h1 : trackedFile st p = (f, st) := by
      simp only [trackedFile, hfind]
    rw [h1]
    refine ⟨hfp, hfind, ?_⟩
    simp only [trackedFile, ← h, hfind]
  | none =>
    have h1 : trackedFile st p
        = (⟨weaklyCanonical p, none⟩, st ++ [⟨weaklyCanonical p, none⟩]) := by
      simp only [trackedFile, hfind]
    rw [h1]
    refine ⟨rfl, ?_, ?_⟩
    · rw [find?_append_of_none hfind]
      simp [List.find?]
    · simp only [trackedFile, ← h]
      rw [find?_append_of_none hfind]
      simp [List.find?]

/-- C10 witness: the theorem applied to the empty map and the two
concrete paths `/a/./b` and `/a/b`, which canonicalize to the same key. -/
theorem tracked_file_canonical_intern_witness :
    (trackedFile [] ["a", ".", "b"]).1.path = weaklyCanonical ["a", ".", "b"] ∧
    (trackedFile [] ["a", ".", "b"]).2.find?
        (fun f => f.path == weaklyCanonical ["a", ".", "b"])
      = some (trackedFile [] ["a", ".", "b"]).1 ∧
    trackedFile (trackedFile [] ["a", ".", "b"]).2 ["a", "b"]
      = ((trackedFile [] ["a", ".", "b"]).1, (trackedFile [] ["a", ".", "b"]).2) :=
  tracked_file_canonical_intern [] ["a", ".", "b"] ["a", "b"] rfl

/-- C8: evaluating `Server::get_file_type` at the recognized config
filenames: a file named exactly `.artic-lsp` has an empty
`fs::path::extension()` and is classified as a SOURCE file, so didOpen
routes it to the compile path and didSave ignores it; `artic.json` is
classified as a config file as the claim states. -/
theorem get_file_type_artic_lsp_misrouted :
    getFileType ["tmp", "work", ".artic-lsp"] = FileType.sourceFile ∧
    didOpenRoute false ["tmp", "work", ".artic-lsp"] = ServerRoute.compilePath ∧
    didSaveRoute ["tmp", "work", ".artic-lsp"] = ServerRoute.noAction ∧
    didChangeRoute ["tmp", "work", ".artic-lsp"] = ServerRoute.compilePath ∧
    getFileType ["tmp", "work", "artic.json"] = FileType.configFile ∧
    didSaveRoute ["tmp", "work", "artic.json"] = ServerRoute.configPath := by
  decide

/-- C9: evaluating the version check of `ConfigParser::parse`: version
`"1.0"` receives the generic "Unsupported" warning (and is treated as
version 2), not the deprecation warning — the `else if` branch is dead
code; `"2.0"` warns nothing; any other value warns "Unsupported". -/
theorem version_check_deprecated_branch_dead :
    versionCheck ["w", "artic.json"] "1.0"
      = ([logWarn ["w", "artic.json"] unsupportedVersionText "artic-config"], 2) ∧
    (∀ m ∈ (versionCheck ["w", "artic.json"] "1.0").1,
        m.message ≠ deprecatedVersionText) ∧
    versionCheck ["w", "artic.json"] "2.0" = ([], 2) ∧
    versionCheck ["w", "artic.json"] "3.0"
      = ([logWarn ["w", "artic.json"] unsupportedVersionText "artic-config"], 2) := by
  decide

/-- C5: evaluating the configuration-diagnostic pipeline at a diagnostic
that carries a literal context: `make_message` (inverted ternary) stores
no context for it, and `publish_config_diagnostics` then dereferences the
absent optional and fails with `bad_optional_access` instead of producing
per-occurrence diagnostics; conversely a diagnostic logged WITHOUT a
context gets the two-character literal `""` attached. -/
theorem publish_config_diagnostics_throws :
    (makeMessage ["w", "artic.json"] Severity.error
        "Failed to resolve dependency dep1" "dep1").context = none ∧
    publishConfigDiagnostics (fun _ => ["dep1"])
        [makeMessage ["w", "artic.json"] Severity.error
          "Failed to resolve dependency dep1" "dep1"]
      = Except.error PubError.badOptionalAccess ∧
    (makeMessage ["w", "artic.json"] Severity.warning "w" "").context
      = some { literal := quoteLit "" } := by
  exact ⟨rfl, rfl, rfl⟩

/-- The new safe-mode flag after one event: cleared by a fully-parsing
build, otherwise unchanged; never set. -/
theorem serverStep_fst (safe : Bool) (e : ServerEvent) :
    (serverStep safe e).1 = (safe && !eventParsesAll e) := by
  cases e with
  | compileRequest fs =>
    cases safe <;> cases h : parsesAllOf fs <;>
      simp [serverStep, eventParsesAll, compileFilesModel, h]
  | otherEvent => simp [serverStep, eventParsesAll]

/-- Closed form of the safe-mode flag after a trace: it is on iff it
started on and no build so far parsed every file. -/
theorem runSafeMode_closed (init : Bool) (evs : List ServerEvent) :
    runSafeMode init evs = (init && evs.all (fun e => !eventParsesAll e)) := by
  induction evs generalizing init with
  | nil => simp [runSafeMode]
  | cons e evs ih =>
    have : runSafeMode init (e :: evs) = runSafeMode ((serverStep init e).1) evs := rfl
    rw [this, ih, serverStep_fst]
    cases init <;> cases h : eventParsesAll e <;> simp [h, List.all_cons]

/-- C7: safe-mode life cycle.  (1) The flag after any trace is on iff the
session started with it on and no build so far parsed all files — so it
is cleared exactly at the first fully-parsing build and no event
re-enables it.  (2) The build issued after a prefix `pre` runs with
`exclude_non_parsed_files` equal to the flag at that point.  (3) With the
flag on, the frontend includes only files that parse. -/
theorem safe_mode_lifecycle (init : Bool) (pre suffix : List ServerEvent)
    (fs : List CompFile) :
    runSafeMode init pre = (init && pre.all (fun e => !eventParsesAll e)) ∧
    runRecords init (pre ++ ServerEvent.compileRequest fs :: suffix)
      = runRecords init pre
        ++ (runSafeMode init pre, parsesAllOf fs)
          :: runRecords (runSafeMode init pre && !parsesAllOf fs) suffix ∧
    (compileFilesModel true fs).1 = fs.filter (fun f => f.readable && f.parsesOk) := by
  refine ⟨runSafeMode_closed init pre, ?_, ?_⟩
  · induction pre generalizing init with
    | nil =>
      show runRecords init (ServerEvent.compileRequest fs :: suffix) = _
      simp only [runRecords, runSafeMode, List.foldl_nil]
      have h2 := serverStep_fst init (ServerEvent.compileRequest fs)
      simp [serverStep, eventParsesAll, compileFilesModel] at h2 ⊢
      cases init <;> cases h : parsesAllOf fs <;> simp [h] at h2 ⊢ <;> rw [h2]
    | cons e pre ih =>
      show (serverStep init e).2.toList
            ++ runRecords (serverStep init e).1 (pre ++ ServerEvent.compileRequest fs :: suffix) = _
      rw [ih]
      have h1 : runSafeMode init (e :: pre) = runSafeMode ((serverStep init e).1) pre := rfl
      have h2 : runRecords init (e :: pre)
          = (serverStep init e).2.toList ++ runRecords (serverStep init e).1 pre := rfl
      rw [h1, h2, List.append_assoc]
  · have hfun : ∀ f : CompFile, (f.readable && (f.parsesOk || !true))
        = (f.readable && f.parsesOk) := by intro f; simp
    simp only [compileFilesModel]
    exact List.filter_congr (fun x _ => hfun x)


/-! Shared lemmas about the cycle-detection pass: name lookup is stable
under it, and every diagnostic it emits names an edge between two
resolvable projects. -/

/-- A name resolves in the table iff it is among the table's names. -/
theorem containsName_iff (t : Table) (x : String) :
    containsName t x = true ↔ x ∈ namesOf t := by
  unfold containsName tryGetProject namesOf
  rw [List.find?_isSome]
  constructor
  · rintro ⟨p, hp, hpx⟩
    exact List.mem_map.mpr ⟨p, hp, by simpa using hpx⟩
  · intro hm
    obtain ⟨p, hp, hpx⟩ := List.mem_map.mp hm
    exact ⟨p, hp, by simp [hpx]⟩

/-- Tables with the same name list resolve the same names. -/
theorem containsName_congr {t t2 : Table} (h : namesOf t = namesOf t2)
    (x : String) : containsName t x = containsName t2 x := by
  cases h2 : containsName t2 x
  · cases h1 : containsName t x
    · rfl
    · exact absurd ((containsName_iff t2 x).mpr (h ▸ (containsName_iff t x).mp h1))
        (by simp [h2])
  · exact (containsName_iff t x).mpr (h.symm ▸ (containsName_iff t2 x).mp h2)

/-- `CycleShaped` transfers along equality of name lists. -/
theorem cycleShaped_congr {t t2 : Table} (h : namesOf t = namesOf t2)
    {m : Message} (hm : CycleShaped t m) : CycleShaped t2 m := by
  obtain ⟨hs, a, b, hmsg, ha, hb⟩ := hm
  refine ⟨hs, a, b, hmsg, ?_, ?_⟩
  · rw [← containsName_congr h a]; exact ha
  · rw [← containsName_congr h b]; exact hb

/-- Removing a dependency edge does not change the name list. -/
theorem removeDep_namesOf (t : Table) (a b : String) :
    namesOf (removeDep t a b) = namesOf t := by
  unfold removeDep namesOf
  rw [List.map_map]
  apply List.map_congr_left
  intro p _
  simp only [Function.comp]
  split <;> rfl

/-- The dependency loop of `detect_cycle` preserves the name list, given
that each single call at the same fuel does. -/
theorem detectDepsF_namesOf (fuel : Nat)
    (ih : ∀ (t : Table) (vis stk : List String) (name parent : String),
      namesOf (detectCycleF fuel t vis stk name parent).table = namesOf t) :
    ∀ (ds : List String) (t : Table) (vis stk : List String) (parent : String),
      namesOf (detectDepsF fuel t vis stk ds parent).table = namesOf t := by
  intro ds
  induction ds with
  | nil => intro t vis stk parent; rfl
  | cons d ds ihl =>
    intro t vis stk parent
    show namesOf (detectDepsF fuel
        (detectCycleF fuel t vis stk d parent).table
        (detectCycleF fuel t vis stk d parent).visited stk ds parent).table = _
    rw [ihl, ih]

/-- `detect_cycle` only removes edges: the name list is unchanged. -/
theorem detectCycleF_namesOf : ∀ (fuel : Nat) (t : Table) (vis stk : List String)
    (name parent : String),
    namesOf (detectCycleF fuel t vis stk name parent).table = namesOf t := by
  intro fuel
  induction fuel with
  | zero => intro t vis stk name parent; rfl
  | succ fuel ih =>
    intro t vis stk name parent
    rw [detectCycleF_succ_eq]
    by_cases h1 : containsName t name = false
    · rw [if_pos h1]
    · rw [if_neg h1]
      by_cases h2 : name ∈ stk
      · rw [if_pos h2]
        exact removeDep_namesOf t parent name
      · rw [if_neg h2]
        by_cases h3 : name ∈ vis
        · rw [if_pos h3]
        · rw [if_neg h3]
          exact detectDepsF_namesOf fuel ih _ _ _ _ _

/-- The dependency loop of `detect_cycle` emits only cycle-shaped
diagnostics, given that each single call at the same fuel does. -/
theorem detectDepsF_msgs_shape (fuel : Nat)
    (ihc : ∀ (t : Table) (vis stk : List String) (name parent : String),
      containsName t parent = true ∨ stk = [] →
      ∀ m ∈ (detectCycleF fuel t vis stk name parent).msgs, CycleShaped t m) :
    ∀ (ds : List String) (t : Table) (vis stk : List String) (parent : String),
      containsName t parent = true →
      ∀ m ∈ (detectDepsF fuel t vis stk ds parent).msgs, CycleShaped t m := by
  intro ds
  induction ds with
  | nil => intro t vis stk parent _ m hm; simp [detectDepsF] at hm
  | cons d ds ihl =>
    intro t vis stk parent hpar m hm
    have hnames : namesOf (detectCycleF fuel t vis stk d parent).table = namesOf t :=
      detectCycleF_namesOf fuel t vis stk d parent
    have hm2 : m ∈ (detectCycleF fuel t vis stk d parent).msgs ++
        (detectDepsF fuel (detectCycleF fuel t vis stk d parent).table
          (detectCycleF fuel t vis stk d parent).visited stk ds parent).msgs := hm
    rcases List.mem_append.mp hm2 with h | h
    · exact ihc t vis stk d parent (Or.inl hpar) m h
    · refine cycleShaped_congr hnames (ihl _ _ _ parent ?_ m h)
      rw [containsName_congr hnames parent]
      exact hpar

/-- Every diagnostic emitted by `detect_cycle` is an error naming an edge
between two projects that resolve in the entry table. -/
theorem detectCycleF_msgs_shape : ∀ (fuel : Nat) (t : Table) (vis stk : List String)
    (name parent : String), containsName t parent = true ∨ stk = [] →
    ∀ m ∈ (detectCycleF fuel t vis stk name parent).msgs, CycleShaped t m := by
  intro fuel
  induction fuel with
  | zero => intro t vis stk name parent _ m hm; simp [detectCycleF] at hm
  | succ fuel ih =>
    intro t vis stk name parent hpar m hm
    rw [detectCycleF_succ_eq] at hm
    by_cases h1 : containsName t name = false
    · rw [if_pos h1] at hm; simp at hm
    · rw [if_neg h1] at hm
      have hname : containsName t name = true := by
        cases hcn : containsName t name
        · exact absurd hcn h1
        · rfl
      by_cases h2 : name ∈ stk
      · rw [if_pos h2] at hm
        simp at hm
        have hstk : stk ≠ [] := by
          intro hh; rw [hh] at h2; simp at h2
        have hparT : containsName t parent = true := hpar.resolve_right hstk
        subst hm
        exact ⟨rfl, parent, name, rfl, hparT, hname⟩
      · rw [if_neg h2] at hm
        by_cases h3 : name ∈ vis
        · rw [if_pos h3] at hm; simp at hm
        · rw [if_neg h3] at hm
          exact detectDepsF_msgs_shape fuel ih (depsOfName t name) t
            (vis ++ [name]) (name :: stk) name hname m hm

/-- The per-dependency driver loop preserves the name list. -/
theorem runCycleDeps_namesOf (fuel : Nat) (root : String) :
    ∀ (ds : List String) (t : Table),
      namesOf (runCycleDeps fuel t root ds).1 = namesOf t := by
  intro ds
  induction ds with
  | nil => intro t; rfl
  | cons d ds ih =>
    intro t
    show namesOf (runCycleDeps fuel (detectCycleF fuel t [] [] root d).table root ds).1 = _
    rw [ih, detectCycleF_namesOf]

/-- The per-dependency driver loop emits only cycle-shaped diagnostics. -/
theorem runCycleDeps_msgs_shape (fuel : Nat) (root : String) :
    ∀ (ds : List String) (t : Table),
      ∀ m ∈ (runCycleDeps fuel t root ds).2, CycleShaped t m := by
  intro ds
  induction ds with
  | nil => intro t m hm; simp [runCycleDeps] at hm
  | cons d ds ih =>
    intro t m hm
    have hm2 : m ∈ (detectCycleF fuel t [] [] root d).msgs ++
        (runCycleDeps fuel (detectCycleF fuel t [] [] root d).table root ds).2 := hm
    rcases List.mem_append.mp hm2 with h | h
    · exact detectCycleF_msgs_shape fuel t [] [] root d (Or.inr rfl) m h
    · exact cycleShaped_congr (detectCycleF_namesOf fuel t [] [] root d)
        (ih (detectCycleF fuel t [] [] root d).table m h)

/-- The whole cycle pass preserves the name list. -/
theorem runCyclePass_namesOf (fuel : Nat) :
    ∀ (ps : List Project) (t : Table),
      namesOf (runCyclePass fuel t ps).1 = namesOf t := by
  intro ps
  induction ps with
  | nil => intro t; rfl
  | cons p ps ih =>
    intro t
    show namesOf (runCyclePass fuel (runCycleDeps fuel t p.name p.dependencies).1 ps).1 = _
    rw [ih, runCycleDeps_namesOf]

/-- The whole cycle pass emits only cycle-shaped diagnostics. -/
theorem runCyclePass_msgs_shape (fuel : Nat) :
    ∀ (ps : List Project) (t : Table),
      ∀ m ∈ (runCyclePass fuel t ps).2, CycleShaped t m := by
  intro ps
  induction ps with
  | nil => intro t m hm; simp [runCyclePass] at hm
  | cons p ps ih =>
    intro t m hm
    have hm2 : m ∈ (runCycleDeps fuel t p.name p.dependencies).2 ++
        (runCyclePass fuel (runCycleDeps fuel t p.name p.dependencies).1 ps).2 := hm
    rcases List.mem_append.mp hm2 with h | h
    · exact runCycleDeps_msgs_shape fuel p.name p.dependencies t m h
    · exact cycleShaped_congr (runCycleDeps_namesOf fuel p.name p.dependencies t)
        (ih (runCycleDeps fuel t p.name p.dependencies).1 m h)

/-- Unresolvable dependency names contribute nothing to `uses_file`:
filtering them out of a dependency list leaves the loop's answer
unchanged. -/
theorem usesDeps_filter_resolvable (fuel : Nat) (t : Table) (file : FsPath) :
    ∀ (ds : List String),
      usesFileDepsF fuel t (ds.filter (fun d => containsName t d)) file
        = usesFileDepsF fuel t ds file := by
  intro ds
  induction ds with
  | nil => rfl
  | cons d ds ih =>
    by_cases h : containsName t d = true
    · rw [List.filter_cons_of_pos h]
      obtain ⟨q, hq⟩ := Option.isSome_iff_exists.mp h
      cases hu : usesFileF fuel t q file with
      | none => simp only [usesFileDepsF, hq, hu]
      | some b =>
        cases b
        · simp only [usesFileDepsF, hq, hu]
          exact ih
        · simp only [usesFileDepsF, hq, hu]
    · rw [List.filter_cons_of_neg (by simpa using h)]
      have hq : tryGetProject t d = none := Option.not_isSome_iff_eq_none.mp h
      simp only [usesFileDepsF, hq]
      exact ih

/-- Unresolvable dependency names contribute no files to
`files_for_project`: filtering them out of a dependency list leaves the
loop's output unchanged. -/
theorem filesDeps_filter_resolvable (fuel : Nat) (t : Table) :
    ∀ (ds : List String) (fm : List File),
      filesForDepsF fuel t fm (ds.filter (fun d => containsName t d))
        = filesForDepsF fuel t fm ds := by
  intro ds
  induction ds with
  | nil => intro fm; rfl
  | cons d ds ih =>
    intro fm
    by_cases h : containsName t d = true
    · rw [List.filter_cons_of_pos h]
      obtain ⟨q, hq⟩ := Option.isSome_iff_exists.mp h
      cases hf : filesForProjectF fuel t fm q with
      | none => simp only [filesForDepsF, hq, hf]
      | some r =>
        obtain ⟨l, fm2⟩ := r
        simp only [filesForDepsF, hq, hf]
        rw [ih]
    · rw [List.filter_cons_of_neg (by simpa using h)]
      have hq : tryGetProject t d = none := Option.not_isSome_iff_eq_none.mp h
      simp only [filesForDepsF, hq]
      exact ih fm

/-- C6 counterexample: the claim asserts an error diagnostic tagged with
the unresolved dependency literal.  Instantiating a config whose single
project `app` depends on the unresolvable name `missing` emits NO
diagnostic at all (the `Failed to resolve dependency` report in
`uses_file` is commented out in part_006, lines 170-171), and `uses_file`
on a path the project does not list answers `false`, skipping the
unresolved dependency silently. -/
theorem unresolved_dependency_counterexample :
    (instantiateConfigF 3 exMissingDisk {} { path := ["w", "artic.json"] }).2.2 = []
      ∧ usesFileF 3 [exMissingDep] exMissingDep ["w", "b.art"] = some false :=
  ⟨rfl, rfl⟩

/-- C6 (amended): a dependency name that does not resolve in the project
table is treated as not used — it neither makes `uses_file` true nor
contributes files to `files_for_project` — but NO diagnostic is emitted
for it: the dependency loops skip unresolvable names silently, and every
diagnostic of the cycle pass (the only dependency diagnostics the
workspace emits) is a cycle error naming two resolvable projects. -/
theorem unresolved_dependency_silent :
    (∀ (fuel : Nat) (t : Table) (file : FsPath) (ds : List String),
      usesFileDepsF fuel t (ds.filter (fun d => containsName t d)) file
        = usesFileDepsF fuel t ds file)
    ∧ (∀ (fuel : Nat) (t : Table) (ds : List String) (fm : List File),
      filesForDepsF fuel t fm (ds.filter (fun d => containsName t d))
        = filesForDepsF fuel t fm ds)
    ∧ (∀ (fuel : Nat) (t : Table) (ps : List Project) (m : Message),
      m ∈ (runCyclePass fuel t ps).2 → CycleShaped t m) :=
  ⟨fun fuel t file ds => usesDeps_filter_resolvable fuel t file ds,
   fun fuel t ds fm => filesDeps_filter_resolvable fuel t ds fm,
   fun fuel t ps m hm => runCyclePass_msgs_shape fuel ps t m hm⟩

/-- Witness for `unresolved_dependency_silent`: the cycle pass on the
two-project cycle emits exactly the pruning error, and the theorem shows
it is cycle-shaped. -/
theorem unresolved_dependency_silent_witness :
    CycleShaped exCycTable (logError [] (cycleErrorText "y" "x") "x") :=
  unresolved_dependency_silent.2.2 3 exCycTable exCycTable
    (logError [] (cycleErrorText "y" "x") "x") (by decide)


/-! Shared lemmas for the cycle-pass analysis: the pass only shrinks
dependency lists, and the fuel measure `countMissing` behaves. -/

/-- `ProjShrink` is reflexive. -/
theorem projShrink_refl (p : Project) : ProjShrink p p :=
  ⟨rfl, fun _ h => h⟩

/-- `ProjShrink` is transitive. -/
theorem projShrink_trans {p q s : Project} (h1 : ProjShrink p q)
    (h2 : ProjShrink q s) : ProjShrink p s :=
  ⟨h2.1.trans h1.1, fun x hx => h1.2 (h2.2 hx)⟩

/-- `Shrinks` is reflexive. -/
theorem shrinks_refl (t : Table) : Shrinks t t :=
  List.forall₂_same.mpr (fun p _ => projShrink_refl p)

/-- `Shrinks` is transitive. -/
theorem shrinks_trans {t1 t2 t3 : Table} (h1 : Shrinks t1 t2)
    (h2 : Shrinks t2 t3) : Shrinks t1 t3 := by
  induction h1 generalizing t3 with
  | nil => cases h2; exact List.Forall₂.nil
  | cons hpq _ ih =>
    cases h2 with
    | cons hqs hrest2 => exact List.Forall₂.cons (projShrink_trans hpq hqs) (ih hrest2)

/-- Shrinking preserves the name list. -/
theorem shrinks_namesOf {t1 t2 : Table} (h : Shrinks t1 t2) :
    namesOf t1 = namesOf t2 := by
  induction h with
  | nil => rfl
  | cons hpq htail ih =>
    rename_i p q l1 l2
    show p.name :: namesOf l1 = q.name :: namesOf l2
    rw [hpq.1, ih]

/-- Pointwise lookup correspondence along `Shrinks`. -/
theorem shrinks_tryGet {t1 t2 : Table} (h : Shrinks t1 t2) (x : String) :
    (tryGetProject t1 x = none ∧ tryGetProject t2 x = none)
      ∨ ∃ p q, tryGetProject t1 x = some p ∧ tryGetProject t2 x = some q
          ∧ ProjShrink p q := by
  induction h with
  | nil => exact Or.inl ⟨rfl, rfl⟩
  | cons hpq hrest ih =>
    rename_i p q l1 l2
    by_cases hc : p.name == x
    · refine Or.inr ⟨p, q, ?_, ?_, hpq⟩
      · simp [tryGetProject, List.find?_cons, hc]
      · have hq : (q.name == x) = true := by rw [hpq.1]; exact hc
        simp [tryGetProject, List.find?_cons, hq]
    · have hcf : (p.name == x) = false := by
        cases hb : p.name == x
        · rfl
        · exact absurd hb hc
      have hqf : (q.name == x) = false := by rw [hpq.1]; exact hcf
      rcases ih with ⟨h1, h2⟩ | ⟨p2, q2, h1, h2, h3⟩
      · refine Or.inl ⟨?_, ?_⟩
        · simp only [tryGetProject, List.find?_cons, hcf]
          exact h1
        · simp only [tryGetProject, List.find?_cons, hqf]
          exact h2
      · refine Or.inr ⟨p2, q2, ?_, ?_, h3⟩
        · simp only [tryGetProject, List.find?_cons, hcf]
          exact h1
        · simp only [tryGetProject, List.find?_cons, hqf]
          exact h2

/-- Shrinking only removes entries from dependency lists. -/
theorem shrinks_deps_subset {t1 t2 : Table} (h : Shrinks t1 t2) (x : String) :
    depsOfName t2 x ⊆ depsOfName t1 x := by
  rcases shrinks_tryGet h x with ⟨h1, h2⟩ | ⟨p, q, h1, h2, h3⟩
  · unfold depsOfName
    rw [h1, h2]
    exact fun d hd => hd
  · unfold depsOfName
    rw [h1, h2]
    exact h3.2

/-- Shrinking only removes dependency edges. -/
theorem shrinks_depEdge {t1 t2 : Table} (h : Shrinks t1 t2) {a b : String}
    (he : depEdge t2 a b) : depEdge t1 a b := by
  obtain ⟨q, hget2, hb, hcont2⟩ := he
  rcases shrinks_tryGet h a with ⟨h1, h2⟩ | ⟨p, q2, h1, h2, h3⟩
  · rw [hget2] at h2; cases h2
  · rw [hget2] at h2
    cases h2
    refine ⟨p, h1, h3.2 hb, ?_⟩
    rw [containsName_congr (shrinks_namesOf h) b]
    exact hcont2

/-- Shrinking only removes dependency paths. -/
theorem shrinks_transGen {t1 t2 : Table} (h : Shrinks t1 t2) {a b : String}
    (ht : Relation.TransGen (depEdge t2) a b) :
    Relation.TransGen (depEdge t1) a b :=
  Relation.TransGen.mono (fun _ _ he => shrinks_depEdge h he) ht

/-- `removeDep` shrinks the table. -/
theorem removeDep_shrinks (t : Table) (a b : String) :
    Shrinks t (removeDep t a b) := by
  induction t with
  | nil => exact List.Forall₂.nil
  | cons p l ih =>
    refine List.Forall₂.cons ?_ ih
    show ProjShrink p (if (p.name == a) = true then
      { p with dependencies := p.dependencies.filter (fun d => d != b) } else p)
    unfold ProjShrink
    split
    · exact ⟨rfl, List.filter_subset' p.dependencies⟩
    · exact ⟨rfl, fun _ h => h⟩

/-- After `removeDep t parent d`, the project registered under `parent`
no longer lists `d`. -/
theorem removeDep_target_not_mem (t : Table) (parent d : String) :
    d ∉ depsOfName (removeDep t parent d) parent := by
  induction t with
  | nil => intro h; exact absurd h (by simp [depsOfName, removeDep, tryGetProject])
  | cons p l ih =>
    by_cases hc : p.name == parent
    · intro hmem
      have hname : ((if p.name == parent then
          { p with dependencies := p.dependencies.filter (fun e => e != d) }
          else p).name == parent) = true := by
        rw [if_pos hc]
        exact hc
      have hfind : tryGetProject (removeDep (p :: l) parent d) parent
          = some (if p.name == parent then
              { p with dependencies := p.dependencies.filter (fun e => e != d) }
              else p) := by
        simp only [removeDep, List.map_cons, tryGetProject, List.find?_cons, hname]
      rw [depsOfName, hfind] at hmem
      rw [if_pos hc] at hmem
      have : d ∈ p.dependencies.filter (fun e => e != d) := hmem
      have hdd := List.of_mem_filter this
      simp at hdd
    · intro hmem
      apply ih
      have hname : ((if p.name == parent then
          { p with dependencies := p.dependencies.filter (fun e => e != d) }
          else p).name == parent) = false := by
        rw [if_neg (by simp [hc])]
        cases hb : p.name == parent
        · rfl
        · exact absurd hb hc
      have hfind : tryGetProject (removeDep (p :: l) parent d) parent
          = tryGetProject (removeDep l parent d) parent := by
        simp only [removeDep, List.map_cons, tryGetProject, List.find?_cons, hname]
      rw [depsOfName, hfind] at hmem
      exact hmem

/-- `countMissing` only depends on the name list. -/
theorem countMissing_congr {t1 t2 : Table} (h : namesOf t1 = namesOf t2)
    (vis : List String) : countMissing t1 vis = countMissing t2 vis := by
  unfold countMissing
  rw [h]

/-- With nothing visited, `countMissing` is the number of names. -/
theorem countMissing_nil (t : Table) : countMissing t [] = (namesOf t).length := by
  unfold countMissing
  simp

/-- Filtering with a stronger predicate keeps fewer elements. -/
theorem length_filter_mono {α : Type} (p q : α → Bool)
    (h : ∀ x, p x = true → q x = true) :
    ∀ l : List α, (l.filter p).length ≤ (l.filter q).length := by
  intro l
  induction l with
  | nil => simp
  | cons a l ih =>
    cases hp : p a
    · cases hq : q a <;> simp only [List.filter_cons, hp, hq] <;> simp <;> omega
    · have hq := h a hp
      simp only [List.filter_cons, hp, hq]
      simp
      omega

/-- Growing the visited set cannot increase `countMissing`. -/
theorem countMissing_mono (t : Table) {vis vis2 : List String}
    (h : ∀ x ∈ vis, x ∈ vis2) : countMissing t vis2 ≤ countMissing t vis := by
  unfold countMissing
  apply length_filter_mono
  intro x hx
  cases hc : vis.contains x
  · rfl
  · have hm : x ∈ vis := by simpa using hc
    have hm2 : x ∈ vis2 := h x hm
    have : vis2.contains x = true := by simpa using hm2
    rw [this] at hx
    cases hx

/-- Visiting an unvisited table name strictly decreases `countMissing`. -/
theorem countMissing_lt (t : Table) (vis : List String) (name : String)
    (h1 : name ∈ namesOf t) (h2 : name ∉ vis) :
    countMissing t (vis ++ [name]) < countMissing t vis := by
  unfold countMissing
  have hfe : ((namesOf t).filter (fun x => !((vis ++ [name]).contains x)))
      = ((namesOf t).filter (fun x => !(vis.contains x))).filter
          (fun x => !(x == name)) := by
    rw [List.filter_filter]
    apply List.filter_congr
    intro x _
    cases hc : vis.contains x
    · cases hn : x == name
      · have hm1 : x ∉ vis := by simpa using hc
        have hm2 : ¬(x = name) := by simpa using hn
        have h3 : ((vis ++ [name]).contains x) = false := by simp [hm1, hm2]
        rw [h3]
        rfl
      · have hm2 : x = name := by simpa using hn
        have h3 : ((vis ++ [name]).contains x) = true := by simp [hm2]
        rw [h3]
        rfl
    · have hm1 : x ∈ vis := by simpa using hc
      have h3 : ((vis ++ [name]).contains x) = true := by simp [hm1]
      rw [h3]
      simp
  rw [hfe]
  refine List.length_filter_lt_length_iff_exists.mpr ⟨name, ?_, ?_⟩
  · rw [List.mem_filter]
    refine ⟨h1, ?_⟩
    have : vis.contains name = false := by
      cases hb : vis.contains name
      · rfl
      · exact absurd (by simpa using hb) h2
    rw [this]
    rfl
  · simp

/-! If a `detect_cycle` run emits no diagnostic, it removed no edge. -/

/-- Dependency-loop version, parametric in the single-call fact. -/
theorem detectDepsF_table_of_msgs_nil (fuel : Nat)
    (ih : ∀ (t : Table) (vis stk : List String) (name parent : String),
      (detectCycleF fuel t vis stk name parent).msgs = [] →
      (detectCycleF fuel t vis stk name parent).table = t) :
    ∀ (ds : List String) (t : Table) (vis stk : List String) (parent : String),
      (detectDepsF fuel t vis stk ds parent).msgs = [] →
      (detectDepsF fuel t vis stk ds parent).table = t := by
  intro ds
  induction ds with
  | nil => intro t vis stk parent _; rfl
  | cons d ds ihl =>
    intro t vis stk parent hm
    have hm2 : (detectCycleF fuel t vis stk d parent).msgs ++
        (detectDepsF fuel (detectCycleF fuel t vis stk d parent).table
          (detectCycleF fuel t vis stk d parent).visited stk ds parent).msgs = [] := hm
    rw [List.append_eq_nil] at hm2
    have e1 := ih t vis stk d parent hm2.1
    have e2 := ihl (detectCycleF fuel t vis stk d parent).table
      (detectCycleF fuel t vis stk d parent).visited stk parent hm2.2
    show (detectDepsF fuel (detectCycleF fuel t vis stk d parent).table
      (detectCycleF fuel t vis stk d parent).visited stk ds parent).table = t
    rw [e2, e1]

/-- A silent `detect_cycle` call leaves the table unchanged. -/
theorem detectCycleF_table_of_msgs_nil :
    ∀ (fuel : Nat) (t : Table) (vis stk : List String) (name parent : String),
      (detectCycleF fuel t vis stk name parent).msgs = [] →
      (detectCycleF fuel t vis stk name parent).table = t := by
  intro fuel
  induction fuel with
  | zero => intro t vis stk name parent _; rfl
  | succ fuel ih =>
    intro t vis stk name parent hm
    rw [detectCycleF_succ_eq] at hm ⊢
    by_cases h1 : containsName t name = false
    · rw [if_pos h1]
    · rw [if_neg h1] at hm ⊢
      by_cases h2 : name ∈ stk
      · rw [if_pos h2] at hm
        cases hm
      · rw [if_neg h2] at hm ⊢
        by_cases h3 : name ∈ vis
        · rw [if_pos h3]
        · rw [if_neg h3] at hm ⊢
          exact detectDepsF_table_of_msgs_nil fuel ih _ t _ _ name hm

/-- A silent driver loop leaves the table unchanged. -/
theorem runCycleDeps_table_of_msgs_nil (fuel : Nat) (root : String) :
    ∀ (ds : List String) (t : Table),
      (runCycleDeps fuel t root ds).2 = [] → (runCycleDeps fuel t root ds).1 = t := by
  intro ds
  induction ds with
  | nil => intro t _; rfl
  | cons d ds ih =>
    intro t hm
    have hm2 : (detectCycleF fuel t [] [] root d).msgs ++
        (runCycleDeps fuel (detectCycleF fuel t [] [] root d).table root ds).2 = [] := hm
    rw [List.append_eq_nil] at hm2
    have e1 := detectCycleF_table_of_msgs_nil fuel t [] [] root d hm2.1
    have e2 := ih (detectCycleF fuel t [] [] root d).table hm2.2
    show (runCycleDeps fuel (detectCycleF fuel t [] [] root d).table root ds).1 = t
    rw [e2, e1]

/-- A silent cycle pass leaves the table unchanged. -/
theorem runCyclePass_table_of_msgs_nil (fuel : Nat) :
    ∀ (ps : List Project) (t : Table),
      (runCyclePass fuel t ps).2 = [] → (runCyclePass fuel t ps).1 = t := by
  intro ps
  induction ps with
  | nil => intro t _; rfl
  | cons p ps ih =>
    intro t hm
    have hm2 : (runCycleDeps fuel t p.name p.dependencies).2 ++
        (runCyclePass fuel (runCycleDeps fuel t p.name p.dependencies).1 ps).2 = [] := hm
    rw [List.append_eq_nil] at hm2
    have e1 := runCycleDeps_table_of_msgs_nil fuel p.name p.dependencies t hm2.1
    have e2 := ih (runCycleDeps fuel t p.name p.dependencies).1 hm2.2
    show (runCyclePass fuel (runCycleDeps fuel t p.name p.dependencies).1 ps).1 = t
    rw [e2, e1]

/-! Unconditional shrinking of the pass. -/

/-- Dependency-loop version, parametric in the single-call fact. -/
theorem detectDepsF_shrinks (fuel : Nat)
    (ih : ∀ (t : Table) (vis stk : List String) (name parent : String),
      Shrinks t (detectCycleF fuel t vis stk name parent).table) :
    ∀ (ds : List String) (t : Table) (vis stk : List String) (parent : String),
      Shrinks t (detectDepsF fuel t vis stk ds parent).table := by
  intro ds
  induction ds with
  | nil => intro t vis stk parent; exact shrinks_refl t
  | cons d ds ihl =>
    intro t vis stk parent
    exact shrinks_trans (ih t vis stk d parent)
      (ihl (detectCycleF fuel t vis stk d parent).table
        (detectCycleF fuel t vis stk d parent).visited stk parent)

/-- `detect_cycle` only removes dependency edges. -/
theorem detectCycleF_shrinks :
    ∀ (fuel : Nat) (t : Table) (vis stk : List String) (name parent : String),
      Shrinks t (detectCycleF fuel t vis stk name parent).table := by
  intro fuel
  induction fuel with
  | zero => intro t vis stk name parent; exact shrinks_refl t
  | succ fuel ih =>
    intro t vis stk name parent
    rw [detectCycleF_succ_eq]
    by_cases h1 : containsName t name = false
    · rw [if_pos h1]; exact shrinks_refl t
    · rw [if_neg h1]
      by_cases h2 : name ∈ stk
      · rw [if_pos h2]; exact removeDep_shrinks t parent name
      · rw [if_neg h2]
        by_cases h3 : name ∈ vis
        · rw [if_pos h3]; exact shrinks_refl t
        · rw [if_neg h3]
          exact detectDepsF_shrinks fuel ih _ t _ _ name

/-- The driver loop only removes dependency edges. -/
theorem runCycleDeps_shrinks (fuel : Nat) (root : String) :
    ∀ (ds : List String) (t : Table), Shrinks t (runCycleDeps fuel t root ds).1 := by
  intro ds
  induction ds with
  | nil => intro t; exact shrinks_refl t
  | cons d ds ih =>
    intro t
    exact shrinks_trans (detectCycleF_shrinks fuel t [] [] root d)
      (ih (detectCycleF fuel t [] [] root d).table)

/-- The cycle pass only removes dependency edges. -/
theorem runCyclePass_shrinks (fuel : Nat) :
    ∀ (ps : List Project) (t : Table), Shrinks t (runCyclePass fuel t ps).1 := by
  intro ps
  induction ps with
  | nil => intro t; exact shrinks_refl t
  | cons p ps ih =>
    intro t
    exact shrinks_trans (runCycleDeps_shrinks fuel p.name p.dependencies t)
      (ih (runCycleDeps fuel t p.name p.dependencies).1)


/-- Membership in `depsOfName` through a successful lookup. -/
theorem depsOfName_eq_of_tryGet {t : Table} {a : String} {p : Project}
    (h : tryGetProject t a = some p) : depsOfName t a = p.dependencies := by
  unfold depsOfName
  rw [h]
  rfl

/-! The DFS invariant: with sufficient fuel, `detect_cycle` visits its
node, only shrinks the table, and leaves every off-stack visited node
cycle-free. -/

/-- The dependency-loop on the invariant, parametric in the single-call
statement at the same fuel. -/
theorem detectDepsF_dfs_inv (fuel : Nat)
    (ih : ∀ (t : Table) (vis stk : List String) (name parent : String),
      countMissing t vis < fuel → VisClean t vis stk →
      Shrinks t (detectCycleF fuel t vis stk name parent).table
        ∧ (∃ ext, (detectCycleF fuel t vis stk name parent).visited = vis ++ ext)
        ∧ VisClean (detectCycleF fuel t vis stk name parent).table
            (detectCycleF fuel t vis stk name parent).visited stk
        ∧ (containsName t name = true →
            name ∈ stk ∨ name ∈ (detectCycleF fuel t vis stk name parent).visited)) :
    ∀ (ds : List String) (t : Table) (vis stk : List String) (parent : String),
      countMissing t vis < fuel → VisClean t vis stk →
      Shrinks t (detectDepsF fuel t vis stk ds parent).table
        ∧ (∃ ext, (detectDepsF fuel t vis stk ds parent).visited = vis ++ ext)
        ∧ VisClean (detectDepsF fuel t vis stk ds parent).table
            (detectDepsF fuel t vis stk ds parent).visited stk
        ∧ (∀ d ∈ ds, DepClean (detectDepsF fuel t vis stk ds parent).table
            (detectDepsF fuel t vis stk ds parent).visited stk parent d) := by
  intro ds
  induction ds with
  | nil =>
    intro t vis stk parent _ hinv
    exact ⟨shrinks_refl t, ⟨[], by simp [detectDepsF]⟩, hinv,
      fun d hd => absurd hd (List.not_mem_nil d)⟩
  | cons d ds ihl =>
    intro t vis stk parent hfuel hinv
    obtain ⟨rA, ⟨ext1, rB⟩, rC, rD⟩ := ih t vis stk d parent hfuel hinv
    have hnames : namesOf (detectCycleF fuel t vis stk d parent).table = namesOf t :=
      detectCycleF_namesOf fuel t vis stk d parent
    have hfuel2 : countMissing (detectCycleF fuel t vis stk d parent).table
        (detectCycleF fuel t vis stk d parent).visited < fuel := by
      rw [countMissing_congr hnames]
      calc countMissing t (detectCycleF fuel t vis stk d parent).visited
          ≤ countMissing t vis := by
            rw [rB]
            exact countMissing_mono t (fun x hx => List.mem_append_left _ hx)
        _ < fuel := hfuel
    obtain ⟨sA, ⟨ext2, sB⟩, sC, sE⟩ := ihl (detectCycleF fuel t vis stk d parent).table
      (detectCycleF fuel t vis stk d parent).visited stk parent hfuel2 rC
    refine ⟨shrinks_trans rA sA, ⟨ext1 ++ ext2, ?_⟩, sC, ?_⟩
    · show (detectDepsF fuel (detectCycleF fuel t vis stk d parent).table
        (detectCycleF fuel t vis stk d parent).visited stk ds parent).visited
          = vis ++ (ext1 ++ ext2)
      rw [sB, rB, List.append_assoc]
    · intro e he
      rcases List.mem_cons.mp he with rfl | he2
      · by_cases hcont : containsName t e = true
        · by_cases hstk : e ∈ stk
          · right; left
            obtain ⟨fl, rfl⟩ : ∃ fl, fuel = fl + 1 := ⟨fuel - 1, by omega⟩
            have hrt : (detectCycleF (fl + 1) t vis stk e parent).table
                = removeDep t parent e := by
              rw [detectCycleF_succ_eq, if_neg (by simp [hcont]), if_pos hstk]
            intro hmem
            apply removeDep_target_not_mem t parent e
            rw [← hrt]
            exact shrinks_deps_subset sA parent hmem
          · right; right
            have hdv : e ∈ (detectCycleF fuel t vis stk e parent).visited :=
              (rD hcont).resolve_left hstk
            refine ⟨?_, hstk⟩
            show e ∈ (detectDepsF fuel (detectCycleF fuel t vis stk e parent).table
              (detectCycleF fuel t vis stk e parent).visited stk ds parent).visited
            rw [sB]
            exact List.mem_append_left _ hdv
        · left
          have hn2 : namesOf (detectDepsF fuel (detectCycleF fuel t vis stk e parent).table
              (detectCycleF fuel t vis stk e parent).visited stk ds parent).table
              = namesOf t := by
            rw [detectDepsF_namesOf fuel (detectCycleF_namesOf fuel) ds _ _ stk parent]
            exact hnames
          show containsName (detectDepsF fuel (detectCycleF fuel t vis stk e parent).table
            (detectCycleF fuel t vis stk e parent).visited stk ds parent).table e = false
          rw [containsName_congr hn2 e]
          cases hb : containsName t e
          · rfl
          · exact absurd hb hcont
      · exact sE e he2

/-- The DFS invariant for a single `detect_cycle` call. -/
theorem detectCycleF_dfs_inv :
    ∀ (fuel : Nat) (t : Table) (vis stk : List String) (name parent : String),
      countMissing t vis < fuel → VisClean t vis stk →
      Shrinks t (detectCycleF fuel t vis stk name parent).table
        ∧ (∃ ext, (detectCycleF fuel t vis stk name parent).visited = vis ++ ext)
        ∧ VisClean (detectCycleF fuel t vis stk name parent).table
            (detectCycleF fuel t vis stk name parent).visited stk
        ∧ (containsName t name = true →
            name ∈ stk ∨ name ∈ (detectCycleF fuel t vis stk name parent).visited) := by
  intro fuel
  induction fuel with
  | zero => intro t vis stk name parent hfuel _; exact absurd hfuel (by omega)
  | succ fuel ih =>
    intro t vis stk name parent hfuel hinv
    rw [detectCycleF_succ_eq]
    by_cases h1 : containsName t name = false
    · rw [if_pos h1]
      refine ⟨shrinks_refl t, ⟨[], by simp⟩, hinv, ?_⟩
      intro hc
      rw [h1] at hc
      cases hc
    · rw [if_neg h1]
      have hcont : containsName t name = true := by
        cases hb : containsName t name
        · exact absurd hb h1
        · rfl
      by_cases h2 : name ∈ stk
      · rw [if_pos h2]
        refine ⟨removeDep_shrinks t parent name, ⟨[], by simp⟩, ?_, fun _ => Or.inl h2⟩
        intro x hx hxs htg
        exact hinv x hx hxs (shrinks_transGen (removeDep_shrinks t parent name) htg)
      · rw [if_neg h2]
        by_cases h3 : name ∈ vis
        · rw [if_pos h3]
          exact ⟨shrinks_refl t, ⟨[], by simp⟩, hinv, fun _ => Or.inr h3⟩
        · rw [if_neg h3]
          have hnmem : name ∈ namesOf t := (containsName_iff t name).mp hcont
          have hfuel2 : countMissing t (vis ++ [name]) < fuel := by
            have := countMissing_lt t vis name hnmem h3
            omega
          have hinv2 : VisClean t (vis ++ [name]) (name :: stk) := by
            intro x hx hxs
            rcases List.mem_append.mp hx with hx2 | hx2
            · exact hinv x hx2 (fun hmem => hxs (List.mem_cons_of_mem _ hmem))
            · have hxn : x = name := by simpa using hx2
              exact absurd (hxn ▸ List.mem_cons_self name stk) hxs
          obtain ⟨sA, ⟨ext, sB⟩, sC, sE⟩ := detectDepsF_dfs_inv fuel ih
            (depsOfName t name) t (vis ++ [name]) (name :: stk) name hfuel2 hinv2
          refine ⟨sA, ⟨name :: ext, by rw [sB]; simp⟩, ?_, ?_⟩
          · intro x hx hxs
            by_cases hxn : x = name
            · subst hxn
              intro htg
              obtain ⟨d, hedge, hrest⟩ := Relation.TransGen.head'_iff.mp htg
              obtain ⟨p, hgp, hdp, hcd⟩ := hedge
              have hdeps_out : d ∈ depsOfName
                  (detectDepsF fuel t (vis ++ [x]) (x :: stk)
                    (depsOfName t x) x).table x := by
                rw [depsOfName_eq_of_tryGet hgp]
                exact hdp
              have hdeps_t : d ∈ depsOfName t x := shrinks_deps_subset sA x hdeps_out
              rcases sE d hdeps_t with hE | hE | hE
              · rw [hE] at hcd
                cases hcd
              · exact hE hdeps_out
              · obtain ⟨hdv, hds⟩ := hE
                exact sC d hdv hds (Relation.TransGen.tail' hrest ⟨p, hgp, hdp, hcd⟩)
            · refine sC x hx ?_
              intro hmem
              rcases List.mem_cons.mp hmem with hh | hh
              · exact hxn hh
              · exact hxs hh
          · intro _
            right
            rw [sB]
            exact List.mem_append_left _ (List.mem_append_right _ (by simp))


/-! The driver: after the pass, no table name lies on a dependency
cycle. -/

/-- A DFS root with at least one declared dependency is cycle-free in
every further shrink of the table. -/
theorem runCycleDeps_root_clean (fuel : Nat) (root : String) (d : String)
    (ds : List String) (t : Table) (hfuel : (namesOf t).length < fuel)
    (hcont : containsName t root = true) :
    ¬ Relation.TransGen (depEdge (runCycleDeps fuel t root (d :: ds)).1) root root := by
  intro htg
  have hfuel0 : countMissing t [] < fuel := by
    rw [countMissing_nil]
    exact hfuel
  have hinv0 : VisClean t [] [] := fun x hx => absurd hx (List.not_mem_nil x)
  obtain ⟨-, -, sC, sD⟩ := detectCycleF_dfs_inv fuel t [] [] root d hfuel0 hinv0
  have hroot_vis : root ∈ (detectCycleF fuel t [] [] root d).visited := by
    rcases sD hcont with h | h
    · exact absurd h (List.not_mem_nil root)
    · exact h
  have hclean := sC root hroot_vis (List.not_mem_nil root)
  have hshr : Shrinks (detectCycleF fuel t [] [] root d).table
      (runCycleDeps fuel t root (d :: ds)).1 :=
    runCycleDeps_shrinks fuel root ds (detectCycleF fuel t [] [] root d).table
  exact hclean (shrinks_transGen hshr htg)

/-- Every declared project of the pass's worklist with a nonempty
dependency list is cycle-free in the pass's final table. -/
theorem runCyclePass_root_clean (fuel : Nat) :
    ∀ (ps : List Project) (t : Table), (namesOf t).length < fuel →
      ∀ p ∈ ps, containsName t p.name = true → p.dependencies ≠ [] →
      ¬ Relation.TransGen (depEdge (runCyclePass fuel t ps).1) p.name p.name := by
  intro ps
  induction ps with
  | nil => intro t _ p hp; exact absurd hp (List.not_mem_nil p)
  | cons q ps ih =>
    intro t hfuel p hp hcont hdeps htg
    rcases List.mem_cons.mp hp with heq | hp2
    · subst heq
      obtain ⟨d, ds, hqd⟩ : ∃ d ds, p.dependencies = d :: ds := by
        cases hq : p.dependencies with
        | nil => exact absurd hq hdeps
        | cons d ds => exact ⟨d, ds, rfl⟩
      have hshr : Shrinks (runCycleDeps fuel t p.name p.dependencies).1
          (runCyclePass fuel t (p :: ps)).1 :=
        runCyclePass_shrinks fuel ps (runCycleDeps fuel t p.name p.dependencies).1
      have hclean : ¬ Relation.TransGen
          (depEdge (runCycleDeps fuel t p.name p.dependencies).1) p.name p.name := by
        rw [hqd]
        exact runCycleDeps_root_clean fuel p.name d ds t hfuel hcont
      exact hclean (shrinks_transGen hshr htg)
    · have hn : namesOf (runCycleDeps fuel t q.name q.dependencies).1 = namesOf t :=
        runCycleDeps_namesOf fuel q.name q.dependencies t
      refine ih (runCycleDeps fuel t q.name q.dependencies).1 ?_ p hp2 ?_ hdeps htg
      · rw [hn]
        exact hfuel
      · rw [containsName_congr hn]
        exact hcont

/-- The table produced by the cycle pass run from every project has an
acyclic dependency graph. -/
theorem cyclePassAll_acyclic (t : Table) : AcyclicTable (cyclePassAll t).1 := by
  intro x htg
  obtain ⟨d, hedge, -⟩ := Relation.TransGen.head'_iff.mp htg
  obtain ⟨p, hgf, hdp, -⟩ := hedge
  have hnames : namesOf (cyclePassAll t).1 = namesOf t :=
    runCyclePass_namesOf (t.length + 1) t t
  have hcontF : containsName (cyclePassAll t).1 x = true := by
    unfold containsName
    rw [hgf]
    rfl
  have hcont : containsName t x = true := by
    rw [← containsName_congr hnames x]
    exact hcontF
  obtain ⟨p0, hg0⟩ := Option.isSome_iff_exists.mp hcont
  have hp0mem : p0 ∈ t := List.mem_of_find?_eq_some hg0
  have hp0name : p0.name = x := by
    have := List.find?_some hg0
    simpa using this
  have hdeps0 : d ∈ p0.dependencies := by
    have hsub : depsOfName (cyclePassAll t).1 x ⊆ depsOfName t x :=
      shrinks_deps_subset (runCyclePass_shrinks (t.length + 1) t t) x
    have hdin : d ∈ depsOfName (cyclePassAll t).1 x := by
      rw [depsOfName_eq_of_tryGet hgf]
      exact hdp
    have hmem := hsub hdin
    rw [depsOfName_eq_of_tryGet hg0] at hmem
    exact hmem
  have hne : p0.dependencies ≠ [] := List.ne_nil_of_mem hdeps0
  have hfuel : (namesOf t).length < t.length + 1 := by
    unfold namesOf
    rw [List.length_map]
    omega
  have hfin := runCyclePass_root_clean (t.length + 1) t t hfuel p0 hp0mem
    (by rw [hp0name]; exact hcont) hne
  rw [hp0name] at hfin
  exact hfin htg

/-- A cyclic table makes the pass emit at least one diagnostic. -/
theorem cyclePassAll_msgs_of_cyclic (t : Table) (h : ¬ AcyclicTable t) :
    (cyclePassAll t).2 ≠ [] := by
  intro hnil
  have htab : (cyclePassAll t).1 = t :=
    runCyclePass_table_of_msgs_nil (t.length + 1) t t hnil
  have hA := cyclePassAll_acyclic t
  rw [htab] at hA
  exact h hA


/-! Termination of `uses_file` and `files_for_project` on acyclic
tables: chain lengths bound the recursion depth. -/

/-- A chain ending in `b` yields a transitive path to `b`. -/
theorem chain_append_transGen {α : Type} {r : α → α → Prop} :
    ∀ (m : List α) (a b : α), List.Chain r a (m ++ [b]) → Relation.TransGen r a b := by
  intro m
  induction m with
  | nil =>
    intro a b h
    cases h with
    | cons hab _ => exact Relation.TransGen.single hab
  | cons c m ih =>
    intro a b h
    cases h with
    | cons hac hrest => exact Relation.TransGen.head hac (ih c b hrest)

/-- On an acyclic table, dependency chains never repeat a node. -/
theorem chain_nodup_of_acyclic {t : Table} (hA : AcyclicTable t) :
    ∀ (l : List String) (a : String),
      List.Chain (depEdge t) a l → (a :: l).Nodup := by
  intro l
  induction l with
  | nil => intro a _; simp
  | cons b l ih =>
    intro a h
    cases h with
    | cons hab hbl =>
      have hnd : (b :: l).Nodup := ih b hbl
      rw [List.nodup_cons]
      refine ⟨?_, hnd⟩
      intro hmem
      rcases List.mem_cons.mp hmem with heq | hmem2
      · exact hA a (Relation.TransGen.single (heq ▸ hab))
      · obtain ⟨s, u, hsu⟩ := List.append_of_mem hmem2
        rw [hsu] at hbl
        have hsplit := List.chain_split.mp hbl
        exact hA a (Relation.TransGen.head hab (chain_append_transGen s b a hsplit.1))

/-- Chain nodes are table names. -/
theorem chain_mem_names {t : Table} :
    ∀ (l : List String) (a : String),
      List.Chain (depEdge t) a l → ∀ x ∈ l, x ∈ namesOf t := by
  intro l
  induction l with
  | nil => intro a _ x hx; exact absurd hx (List.not_mem_nil x)
  | cons b l ih =>
    intro a h x hx
    cases h with
    | cons hab hbl =>
      rcases List.mem_cons.mp hx with heq | hx2
      · obtain ⟨p, _, _, hc⟩ := hab
        exact (containsName_iff t x).mp (heq ▸ hc)
      · exact ih b hbl x hx2

/-- On an acyclic table every chain is shorter than the name count plus
one. -/
theorem acyclic_boundedFrom {t : Table} (hA : AcyclicTable t) (a : String) :
    BoundedFrom t a ((namesOf t).length + 1) := by
  intro l hchain
  have hnd : (a :: l).Nodup := chain_nodup_of_acyclic hA l a hchain
  have hsub : l ⊆ namesOf t := fun x hx => chain_mem_names l a hchain x hx
  have hle : l.length ≤ (namesOf t).length :=
    ((List.nodup_cons.mp hnd).2.subperm hsub).length_le
  omega

/-- No bound of zero exists: the empty chain refutes it. -/
theorem boundedFrom_zero {t : Table} {a : String} (h : BoundedFrom t a 0) : False := by
  have := h [] List.Chain.nil
  omega

/-- The dependency loop of `uses_file` returns when every resolvable
entry has bounded chains, parametric in the single-project statement. -/
theorem usesFileDepsF_isSome (n : Nat) (t : Table) (file : FsPath)
    (ih : ∀ (a : String) (q : Project), tryGetProject t a = some q →
      BoundedFrom t a n → (usesFileF n t q file).isSome = true) :
    ∀ (ds : List String),
      (∀ d ∈ ds, containsName t d = true → BoundedFrom t d n) →
      (usesFileDepsF n t ds file).isSome = true := by
  intro ds
  induction ds with
  | nil => intro _; rfl
  | cons d ds ihl =>
    intro hb
    cases hq : tryGetProject t d with
    | none =>
      simp only [usesFileDepsF, hq]
      exact ihl (fun e he hc => hb e (List.mem_cons_of_mem d he) hc)
    | some q =>
      have hcd : containsName t d = true := by
        unfold containsName
        rw [hq]
        rfl
      have hsome := ih d q hq (hb d (List.mem_cons_self d ds) hcd)
      cases hu : usesFileF n t q file with
      | none =>
        rw [hu] at hsome
        cases hsome
      | some b =>
        cases b
        · simp only [usesFileDepsF, hq, hu]
          exact ihl (fun e he hc => hb e (List.mem_cons_of_mem d he) hc)
        · simp only [usesFileDepsF, hq, hu]
          rfl

/-- `uses_file` returns whenever the start name has bounded chains. -/
theorem usesFileF_isSome_of_bounded :
    ∀ (n : Nat) (t : Table) (file : FsPath) (a : String) (q : Project),
      tryGetProject t a = some q → BoundedFrom t a n →
      (usesFileF n t q file).isSome = true := by
  intro n
  induction n with
  | zero => intro t file a q _ hb; exact absurd hb (fun h => boundedFrom_zero h)
  | succ n ih =>
    intro t file a q hget hb
    rw [usesFileF_succ_eq]
    by_cases hf : file ∈ q.files
    · rw [if_pos hf]
      rfl
    · rw [if_neg hf]
      apply usesFileDepsF_isSome n t file (fun a2 q2 hg2 hb2 => ih t file a2 q2 hg2 hb2)
      intro d hd hcd l hchain
      have hedge : depEdge t a d := ⟨q, hget, hd, hcd⟩
      have := hb (d :: l) (List.Chain.cons hedge hchain)
      simp only [List.length_cons] at this
      omega

/-- The dependency loop of `files_for_project` returns when every
resolvable entry has bounded chains. -/
theorem filesForDepsF_isSome (n : Nat) (t : Table)
    (ih : ∀ (a : String) (q : Project), tryGetProject t a = some q →
      BoundedFrom t a n → ∀ fm, (filesForProjectF n t fm q).isSome = true) :
    ∀ (ds : List String),
      (∀ d ∈ ds, containsName t d = true → BoundedFrom t d n) →
      ∀ fm, (filesForDepsF n t fm ds).isSome = true := by
  intro ds
  induction ds with
  | nil => intro _ fm; rfl
  | cons d ds ihl =>
    intro hb fm
    cases hq : tryGetProject t d with
    | none =>
      simp only [filesForDepsF, hq]
      exact ihl (fun e he hc => hb e (List.mem_cons_of_mem d he) hc) fm
    | some q =>
      have hcd : containsName t d = true := by
        unfold containsName
        rw [hq]
        rfl
      have hsome := ih d q hq (hb d (List.mem_cons_self d ds) hcd) fm
      obtain ⟨pr, hpr⟩ := Option.isSome_iff_exists.mp hsome
      obtain ⟨l, fm2⟩ := pr
      have hsome2 := ihl (fun e he hc => hb e (List.mem_cons_of_mem d he) hc) fm2
      obtain ⟨pr2, hpr2⟩ := Option.isSome_iff_exists.mp hsome2
      obtain ⟨l2, fm3⟩ := pr2
      simp only [filesForDepsF, hq, hpr, hpr2]
      rfl

/-- `files_for_project` returns whenever the start name has bounded
chains. -/
theorem filesForProjectF_isSome_of_bounded :
    ∀ (n : Nat) (t : Table) (a : String) (q : Project),
      tryGetProject t a = some q → BoundedFrom t a n →
      ∀ fm, (filesForProjectF n t fm q).isSome = true := by
  intro n
  induction n with
  | zero => intro t a q _ hb; exact absurd hb (fun h => boundedFrom_zero h)
  | succ n ih =>
    intro t a q hget hb fm
    rw [filesForProjectF_succ_eq]
    have hds : (filesForDepsF n t (trackedMany fm q.files).2 q.dependencies).isSome
        = true := by
      apply filesForDepsF_isSome n t (fun a2 q2 hg2 hb2 fm2 => ih t a2 q2 hg2 hb2 fm2)
      · intro d hd hcd l hchain
        have hedge : depEdge t a d := ⟨q, hget, hd, hcd⟩
        have := hb (d :: l) (List.Chain.cons hedge hchain)
        simp only [List.length_cons] at this
        omega
    obtain ⟨pr, hpr⟩ := Option.isSome_iff_exists.mp hds
    obtain ⟨df, fm2⟩ := pr
    rw [hpr]
    rfl

/-- On an acyclic table, `uses_file` terminates for every project. -/
theorem usesFile_terminates_of_acyclic (t : Table) (p : Project) (file : FsPath)
    (hA : AcyclicTable t) : UsesFileTerminates t p file := by
  refine ⟨(namesOf t).length + 1 + 1, ?_⟩
  rw [usesFileF_succ_eq]
  by_cases hf : file ∈ p.files
  · rw [if_pos hf]
    rfl
  · rw [if_neg hf]
    apply usesFileDepsF_isSome ((namesOf t).length + 1) t file
      (fun a q hg hb => usesFileF_isSome_of_bounded ((namesOf t).length + 1) t file a q hg hb)
    exact fun d _ _ => acyclic_boundedFrom hA d

/-- On an acyclic table, `files_for_project` terminates for every
project. -/
theorem filesFor_terminates_of_acyclic (t : Table) (p : Project)
    (hA : AcyclicTable t) : FilesForTerminates t p := by
  refine ⟨(namesOf t).length + 1 + 1, ?_⟩
  intro fm
  rw [filesForProjectF_succ_eq]
  have hds : (filesForDepsF ((namesOf t).length + 1) t (trackedMany fm p.files).2
      p.dependencies).isSome = true := by
    apply filesForDepsF_isSome ((namesOf t).length + 1) t
      (fun a q hg hb fm2 => filesForProjectF_isSome_of_bounded ((namesOf t).length + 1)
        t a q hg hb fm2)
    exact fun d _ _ => acyclic_boundedFrom hA d
  obtain ⟨pr, hpr⟩ := Option.isSome_iff_exists.mp hds
  obtain ⟨df, fm2⟩ := pr
  rw [hpr]
  rfl

/-- Joint divergence of `uses_file` on the concrete cyclic table: no
recursion depth returns, for either project of the cycle. -/
theorem exCyc_usesFileF_none : ∀ (n : Nat),
    usesFileF n exCycTable exCycX ["w", "b.art"] = none
      ∧ usesFileF n exCycTable exCycY ["w", "b.art"] = none := by
  intro n
  induction n with
  | zero => exact ⟨rfl, rfl⟩
  | succ n ih =>
    constructor
    · rw [usesFileF_succ_eq, if_neg (by decide)]
      have hy : tryGetProject exCycTable "y" = some exCycY := by rfl
      simp only [usesFileDepsF, hy, ih.2]
    · rw [usesFileF_succ_eq, if_neg (by decide)]
      have hx : tryGetProject exCycTable "x" = some exCycX := by rfl
      simp only [usesFileDepsF, hx, ih.1]


/-- C2 counterexample: `uses_file` and `files_for_project` themselves
have NO visited set (part_006, lines 166-190); on the two-project cycle
`x -> y -> x` the recursion `uses_file(x, f)` never returns — no
recursion depth suffices.  The visited set lives only in the separate
`detect_cycle` pass of `instantiate_config`. -/
theorem uses_file_unbounded_on_cycle :
    ¬ UsesFileTerminates exCycTable exCycX ["w", "b.art"] := by
  intro h
  obtain ⟨n, hn⟩ := h
  rw [(exCyc_usesFileF_none n).1] at hn
  cases hn

/-- C2 (amended): the traversals of `uses_file` and `files_for_project`
terminate only because `instantiate_config` first runs `detect_cycle`
from every declared project: (i) and (ii) on an acyclic table both
traversals terminate; (iii) the table the cycle pass returns is acyclic,
every edge of a cycle reachable from a declared project having been
removed; (iv) every diagnostic the pass emits is an error naming an edge
between two resolvable projects (the dependency literal is passed to the
logger but dropped by `make_message`); and (v) a cyclic table makes the
pass emit at least one such diagnostic. -/
theorem cycle_pass_restores_termination :
    (∀ (t : Table) (p : Project) (file : FsPath),
      AcyclicTable t → UsesFileTerminates t p file)
    ∧ (∀ (t : Table) (p : Project), AcyclicTable t → FilesForTerminates t p)
    ∧ (∀ t : Table, AcyclicTable (cyclePassAll t).1)
    ∧ (∀ (t : Table) (m : Message), m ∈ (cyclePassAll t).2 → CycleShaped t m)
    ∧ (∀ t : Table, ¬ AcyclicTable t → (cyclePassAll t).2 ≠ []) :=
  ⟨fun t p file hA => usesFile_terminates_of_acyclic t p file hA,
   fun t p hA => filesFor_terminates_of_acyclic t p hA,
   cyclePassAll_acyclic,
   fun t m hm => runCyclePass_msgs_shape (t.length + 1) t t m hm,
   cyclePassAll_msgs_of_cyclic⟩

/-- Witness for `cycle_pass_restores_termination`: a concrete acyclic
single-project table on which `uses_file` terminates, and the concrete
cyclic table on which the pass emits a diagnostic. -/
theorem cycle_pass_restores_termination_witness :
    UsesFileTerminates [exLib] exLib exAPath ∧ (cyclePassAll exCycTable).2 ≠ [] := by
  constructor
  · apply cycle_pass_restores_termination.1 [exLib] exLib exAPath
    intro x htg
    obtain ⟨b, hb, -⟩ := Relation.TransGen.head'_iff.mp htg
    obtain ⟨p, hp, hmem, -⟩ := hb
    cases hc : exLib.name == x
    · simp only [tryGetProject, List.find?_cons, hc, List.find?_nil] at hp
      cases hp
    · simp only [tryGetProject, List.find?_cons, hc] at hp
      injection hp with hpe
      rw [← hpe] at hmem
      simp [exLib] at hmem
  · apply cycle_pass_restores_termination.2.2.2.2 exCycTable
    intro hA
    apply hA "x"
    have e1 : depEdge exCycTable "x" "y" := ⟨exCycX, by rfl, by decide, by rfl⟩
    have e2 : depEdge exCycTable "y" "x" := ⟨exCycY, by rfl, by decide, by rfl⟩
    exact Relation.TransGen.head e1 (Relation.TransGen.single e2)

end Artic
